import Mathlib

/-!
Verification of the core of `MunkiAdmin/Scripts/yaml_bridge.py`: the
pkginfo key-ordering policies, the recursive ordering pass, the robust
YAML-loading cascade (long-line truncation, chunked document recovery,
encoding fallback) and the emission paths of `main`.

Python dictionaries preserve insertion order and have unique string keys;
a mapping is embedded as a `List (String × Node)` in insertion order.
-/

set_option maxHeartbeats 1000000

namespace YamlBridge

/-- Document tree produced by `yaml.safe_load` / consumed by the emitters:
mappings keep insertion order, keys are strings. -/
inductive Node where
  | null : Node
  | bool (b : Bool) : Node
  | int (n : Int) : Node
  | str (s : String) : Node
  | seq (items : List Node) : Node
  | map (pairs : List (String × Node)) : Node

/-- `PRIORITY_KEYS = ['name', 'display_name', 'version']` -/
def PRIORITY_KEYS : List String := ["name", "display_name", "version"]

/-- `LAST_KEYS = ['_metadata']` -/
def LAST_KEYS : List String := ["_metadata"]

/-- `RECEIPT_KEY_ORDER` -/
def RECEIPT_KEY_ORDER : List String :=
  ["packageid", "name", "filename", "installed_size", "version", "optional"]

/-- `INSTALLS_KEY_ORDER` -/
def INSTALLS_KEY_ORDER : List String :=
  ["path", "type", "CFBundleIdentifier", "CFBundleName",
   "CFBundleShortVersionString", "CFBundleVersion", "md5checksum", "minosversion"]

/-- `ORDER.index(k) if k in ORDER else 999` — the sort key used by the
`ordered.sort(key=...)` calls. -/
def keyIndex (order : List String) (k : String) : Nat :=
  if k ∈ order then order.indexOf k else 999

/-- Comparison relation induced by `keyIndex` (Python sorts by this key). -/
def idxLe (order : List String) (a b : String) : Prop :=
  keyIndex order a ≤ keyIndex order b

instance (order : List String) : DecidableRel (idxLe order) :=
  fun a b => inferInstanceAs (Decidable (keyIndex order a ≤ keyIndex order b))

/-- Alphabetical comparison used by Python's `list.sort()` on strings. -/
def alphaLe (a b : String) : Prop := a ≤ b

instance : DecidableRel alphaLe := fun a b => inferInstanceAs (Decidable (a ≤ b))

/-- `sort_receipt_keys(keys)`: keys in `RECEIPT_KEY_ORDER` first (by their
position there), the rest alphabetically after. -/
def sort_receipt_keys (keys : List String) : List String :=
  let ordered := keys.filter (fun k => k ∈ RECEIPT_KEY_ORDER)
  let other := keys.filter (fun k => k ∉ RECEIPT_KEY_ORDER)
  List.insertionSort (idxLe RECEIPT_KEY_ORDER) ordered ++ List.insertionSort alphaLe other

/-- `sort_installs_keys(keys)`: keys in `INSTALLS_KEY_ORDER` first (by their
position there), the rest alphabetically after. -/
def sort_installs_keys (keys : List String) : List String :=
  let ordered := keys.filter (fun k => k ∈ INSTALLS_KEY_ORDER)
  let other := keys.filter (fun k => k ∉ INSTALLS_KEY_ORDER)
  List.insertionSort (idxLe INSTALLS_KEY_ORDER) ordered ++ List.insertionSort alphaLe other

/-- `sort_pkginfo_keys(keys)`: the one-pass `if / elif / else` partition into
`first_keys` (`k in PRIORITY_KEYS`), `end_keys` (`k in LAST_KEYS`) and
`middle_keys`, each then sorted as in the source. -/
def sort_pkginfo_keys (keys : List String) : List String :=
  let first_keys := keys.filter (fun k => k ∈ PRIORITY_KEYS)
  let end_keys := keys.filter (fun k => k ∉ PRIORITY_KEYS ∧ k ∈ LAST_KEYS)
  let middle_keys := keys.filter (fun k => k ∉ PRIORITY_KEYS ∧ k ∉ LAST_KEYS)
  List.insertionSort (idxLe PRIORITY_KEYS) first_keys
    ++ List.insertionSort alphaLe middle_keys
    ++ List.insertionSort alphaLe end_keys

/-- The internal order-preservation marker key `'__ordered_keys__'`. -/
def ORDER_MARKER : String := "__ordered_keys__"

/-- Keys of a mapping, in insertion order. -/
def keysOf (pairs : List (String × Node)) : List String := pairs.map (·.1)

/-- `clean_data = {k: v for k, v in data.items() if k != '__ordered_keys__'}` -/
def cleanPairs (pairs : List (String × Node)) : List (String × Node) :=
  pairs.filter (fun p => p.1 ≠ ORDER_MARKER)

/-- `is_receipt_dict(d)`: `'packageid' in d`. -/
def is_receipt_dict (pairs : List (String × Node)) : Bool :=
  decide ("packageid" ∈ keysOf pairs)

/-- `is_installs_dict(d)`: `'path' in d and 'type' in d`. -/
def is_installs_dict (pairs : List (String × Node)) : Bool :=
  decide ("path" ∈ keysOf pairs) && decide ("type" ∈ keysOf pairs)

/-- The `if is_receipt_dict / elif is_installs_dict / else` dispatch of
`order_pkginfo_keys`, computing `sorted_keys` from the clean mapping. -/
def selectKeyOrder (pairs : List (String × Node)) : List String :=
  if is_receipt_dict pairs then sort_receipt_keys (keysOf pairs)
  else if is_installs_dict pairs then sort_installs_keys (keysOf pairs)
  else sort_pkginfo_keys (keysOf pairs)

/-- First value stored under key `k` (mappings coming from Python dicts have
unique keys, so this is the dict access `d[k]`; `Node.null` is returned for
an absent key, which the source never accesses). -/
def lookupD (pairs : List (String × Node)) (k : String) : Node :=
  (pairs.lookup k).getD Node.null

mutual

/-- `order_pkginfo_keys(data)`: strip `__ordered_keys__`, pick the sort order
from the clean mapping's own keys, and rebuild the mapping in that order with
every value recursively ordered.  (The source orders `clean_data[key]` while
rebuilding; here every value is ordered first and then looked up, which is the
same function since values of dropped marker keys are never used.) -/
def order_pkginfo_keys : Node → Node
  | .map pairs =>
    let clean := cleanPairs (orderPairs pairs)
    .map ((selectKeyOrder clean).map (fun k => (k, lookupD clean k)))
  | .seq items => .seq (orderSeq items)
  | n => n

/-- Recursively order every value of an association list. -/
def orderPairs : List (String × Node) → List (String × Node)
  | [] => []
  | (k, v) :: rest => (k, order_pkginfo_keys v) :: orderPairs rest

/-- Recursively order every element of a sequence. -/
def orderSeq : List Node → List Node
  | [] => []
  | x :: rest => order_pkginfo_keys x :: orderSeq rest

end

mutual

/-- `remove_order_markers(data)`: recursively drop `__ordered_keys__` keys. -/
def remove_order_markers : Node → Node
  | .map pairs => .map (removeMarkersPairs pairs)
  | .seq items => .seq (removeMarkersSeq items)
  | n => n

/-- Recursive helper of `remove_order_markers` over mapping entries. -/
def removeMarkersPairs : List (String × Node) → List (String × Node)
  | [] => []
  | (k, v) :: rest =>
    if k = ORDER_MARKER then removeMarkersPairs rest
    else (k, remove_order_markers v) :: removeMarkersPairs rest

/-- Recursive helper of `remove_order_markers` over sequences. -/
def removeMarkersSeq : List Node → List Node
  | [] => []
  | x :: rest => remove_order_markers x :: removeMarkersSeq rest

end

/-! ### Text utilities (Python `str` operations used by the loader) -/

/-- `c in ' \t'` — the word-boundary test of the long-line truncation. -/
def isSpaceTab (c : Char) : Bool := c = ' ' || c = '\t'

/-- Python whitespace for `str.strip()` (modelled by `Char.isWhitespace`). -/
def isPyWs (c : Char) : Bool := c.isWhitespace

/-- `str.splitlines()` restricted to `'\n'` line terminators (the loader sees
text already normalised by Python's universal-newline file reading): split at
each newline, with no empty trailing entry for a terminal newline. -/
def splitLines : List Char → List (List Char)
  | [] => []
  | c :: cs =>
    if c = '\n' then [] :: splitLines cs
    else
      match splitLines cs with
      | [] => [[c]]
      | l :: ls => (c :: l) :: ls

/-- `'\n'.join(lines)` -/
def joinNl (ls : List (List Char)) : List Char := List.intercalate ['\n'] ls

/-- `str.strip()`: drop leading and trailing whitespace. -/
def stripText (t : List Char) : List Char :=
  ((t.dropWhile isPyWs).reverse.dropWhile isPyWs).reverse

/-- `str.rstrip('\n')`: drop every trailing newline. -/
def rstripNl (t : List Char) : List Char :=
  (t.reverse.dropWhile (· = '\n')).reverse

/-- `str.expandtabs(2)`: each tab advances the column to the next multiple
of 2 as spaces. -/
def expandTabs2 (col : Nat) : List Char → List Char
  | [] => []
  | c :: cs =>
    if c = '\t' then
      let pad := 2 - col % 2
      List.replicate pad ' ' ++ expandTabs2 (col + pad) cs
    else c :: expandTabs2 (col + 1) cs

/-! ### `RobustYAMLLoader.preprocess_yaml` -/

/-- The backward word-boundary search:
`while truncate_pos > 8000 and line[truncate_pos] not in ' \t': truncate_pos -= 1`
(started at 9000; the line has more than 10000 characters, so every probed
index is in range and the `getD` default is never used). -/
def truncLoop (line : List Char) (pos : Nat) : Nat :=
  if 8000 < pos ∧ isSpaceTab (line.getD pos 'x') = false then
    truncLoop line (pos - 1)
  else pos
termination_by pos
decreasing_by omega

/-- The `if len(line) > 10000` repair of `preprocess_yaml`, with the
diagnostics it emits: truncate at the found word boundary if one exists
above position 8000, else hard-truncate at 9000. -/
def truncate_long_line (lineNum : Nat) (line : List Char) : List Char × List String :=
  if line.length > 10000 then
    let truncate_pos := truncLoop line 9000
    if truncate_pos > 8000 then
      (line.take truncate_pos ++ "...".data,
       [s!"Warning: Truncated long line {lineNum} at {truncate_pos} characters"])
    else
      (line.take 9000 ++ "...".data,
       [s!"Warning: Hard truncated line {lineNum}"])
  else (line, [])

/-- One iteration of the `preprocess_yaml` loop: long-line truncation, then
tab expansion.  (The final `line.encode('utf-8')` repair can never fire in
this model: Lean `Char` is always a valid unicode scalar value, exactly the
strings for which Python's encode succeeds.) -/
def processLine (lineNum : Nat) (line : List Char) : List Char × List String :=
  let (l1, d1) := truncate_long_line lineNum line
  let l2 := if '\t' ∈ l1 then expandTabs2 0 l1 else l1
  (l2, d1)

/-- The `for line_num, line in enumerate(lines, 1)` loop of
`preprocess_yaml`. -/
def preprocessLines (lineNum : Nat) : List (List Char) → List (List Char) × List String
  | [] => ([], [])
  | l :: ls =>
    let (l', d) := processLine lineNum l
    let (ls', ds) := preprocessLines (lineNum + 1) ls
    (l' :: ls', d ++ ds)

/-- `RobustYAMLLoader.preprocess_yaml(content)` with its diagnostics. -/
def preprocess_yaml (content : List Char) : List Char × List String :=
  let (ls, ds) := preprocessLines 1 (splitLines content)
  (joinNl ls, ds)

/-! ### `RobustYAMLLoader.parse_chunked_yaml` and `safe_load_yaml`

`yaml.safe_load` is external library code; it is a parameter of the model:
it either raises `yaml.YAMLError` (`Except.error ()`) or returns a document,
where Python `None` (the null document) is `Option.none`. -/

/-- Model of `yaml.safe_load`. -/
def ParseFun := List Char → Except Unit (Option Node)

/-- The `'---'` document-separator content. -/
def dashMarker : List Char := ['-', '-', '-']

/-- The document-splitting loop of `parse_chunked_yaml`: a line whose
stripped content is `---` flushes the current (non-empty) segment; otherwise
the line joins the current segment.  A trailing segment is flushed at the
end. -/
def chunkDocs : List (List Char) → List (List Char) → List (List Char) → List (List Char)
  | [], current, docs =>
    if current = [] then docs else docs ++ [joinNl current]
  | line :: rest, current, docs =>
    if stripText line = dashMarker ∧ current ≠ [] then
      chunkDocs rest [] (docs ++ [joinNl current])
    else
      chunkDocs rest (current ++ [line]) docs

/-- The `for i, doc in enumerate(yaml_docs)` scan: return the first segment
parsing to a non-null document (segments that raise or parse to null are
skipped), with the success diagnostic; exhaustion raises. -/
def scanDocs (parse : ParseFun) : List (List Char) → Nat → Nat → Except Unit (Option Node) × List String
  | [], _, _ => (.error (), [])
  | d :: rest, i, total =>
    match parse d with
    | .ok (some v) =>
      (.ok (some v), [s!"Successfully parsed YAML document {i+1} of {total}"])
    | _ => scanDocs parse rest (i + 1) total

/-- `RobustYAMLLoader.parse_chunked_yaml(content)`: fewer than 100 lines just
re-parses; otherwise split on document separators and, when more than one
segment was found, return the first segment parsing non-null; in every other
case raise. -/
def parse_chunked_yaml (parse : ParseFun) (content : List Char) :
    Except Unit (Option Node) × List String :=
  let lines := splitLines content
  if lines.length < 100 then (parse content, [])
  else
    let docs := chunkDocs lines [] []
    if docs.length > 1 then scanDocs parse docs 0 docs.length
    else (.error (), [])

/-- `RobustYAMLLoader.safe_load_yaml(content)`: the three-strategy cascade.
Strategy 2 rebinds `content` to the preprocessed text, which strategy 3 then
receives.  A parse that *returns* `None` is a success of its strategy and is
returned as-is. -/
def safe_load_yaml (parse : ParseFun) (content : List Char) : Option Node × List String :=
  match parse content with
  | .ok v => (v, [])
  | .error _ =>
    let d1 := ["Standard YAML parsing failed"]
    let (pre, dpre) := preprocess_yaml content
    match parse pre with
    | .ok v => (v, d1 ++ dpre)
    | .error _ =>
      let d2 := ["Preprocessed YAML parsing failed"]
      match parse_chunked_yaml parse pre with
      | (.ok v, dc) => (v, d1 ++ dpre ++ d2 ++ dc)
      | (.error _, dc) =>
        (none, d1 ++ dpre ++ d2 ++ dc ++ ["Chunked YAML parsing failed"])

/-- The content-level part of `yaml_to_dict`: empty or whitespace-only text
yields an empty mapping, everything else goes through the robust loader.
(The file-existence, size-ceiling and decoding checks happen on bytes before
this point; decoding is modelled separately below.) -/
def yaml_to_dict (parse : ParseFun) (content : List Char) : Option Node × List String :=
  if stripText content = [] then (some (.map []), ["Warning: Empty YAML file"])
  else safe_load_yaml parse content

/-! ### Encoding fallback of `yaml_to_dict`

Models of the Python codecs used by
`encodings = ['utf-8', 'utf-8-sig', 'latin1', 'cp1252']`. -/

/-- A raw input byte. -/
abbrev Byte := Fin 256

/-- Is a byte a UTF-8 continuation byte (`0x80..0xBF`)? -/
def isCont (b : Byte) : Bool := 0x80 ≤ b.val && b.val ≤ 0xBF

/-- Strict UTF-8 decoding (rejects truncated sequences, overlong forms,
surrogates and out-of-range code points, as Python's `'utf-8'` codec does). -/
def utf8Decode : List Byte → Option (List Char)
  | [] => some []
  | b :: rest =>
    let n := b.val
    if n < 0x80 then
      (utf8Decode rest).map (Char.ofNat n :: ·)
    else if n < 0xC2 then none
    else if n < 0xE0 then
      match rest with
      | c1 :: rest1 =>
        if isCont c1 then
          (utf8Decode rest1).map (Char.ofNat ((n % 32) * 64 + c1.val % 64) :: ·)
        else none
      | _ => none
    else if n < 0xF0 then
      match rest with
      | c1 :: c2 :: rest2 =>
        let cp := (n % 16) * 4096 + (c1.val % 64) * 64 + c2.val % 64
        if isCont c1 && isCont c2 && decide (0x800 ≤ cp) &&
            !(decide (0xD800 ≤ cp) && decide (cp ≤ 0xDFFF)) then
          (utf8Decode rest2).map (Char.ofNat cp :: ·)
        else none
      | _ => none
    else if n < 0xF5 then
      match rest with
      | c1 :: c2 :: c3 :: rest3 =>
        let cp := (n % 8) * 262144 + (c1.val % 64) * 4096 + (c2.val % 64) * 64 + c3.val % 64
        if isCont c1 && isCont c2 && isCont c3 &&
            decide (0x10000 ≤ cp) && decide (cp ≤ 0x10FFFF) then
          (utf8Decode rest3).map (Char.ofNat cp :: ·)
        else none
      | _ => none
    else none

/-- `'utf-8-sig'`: strip one leading byte-order mark if present, then UTF-8. -/
def utf8SigDecode (bs : List Byte) : Option (List Char) :=
  match bs with
  | b0 :: b1 :: b2 :: rest =>
    if b0.val = 0xEF ∧ b1.val = 0xBB ∧ b2.val = 0xBF then utf8Decode rest
    else utf8Decode bs
  | _ => utf8Decode bs

/-- `'latin1'`: every byte maps to the code point of the same value; this
codec accepts every byte sequence. -/
def latin1Decode (bs : List Byte) : List Char :=
  bs.map (fun b => Char.ofNat b.val)

/-- The `'cp1252'` mapping of one byte: bytes `0x80..0x9F` map through the
Windows-1252 table, in which `0x81, 0x8D, 0x8F, 0x90, 0x9D` are undefined
(strict decoding fails on them); all other bytes map to themselves. -/
def cp1252Char (b : Byte) : Option Char :=
  let n := b.val
  if n < 0x80 ∨ 0xA0 ≤ n then some (Char.ofNat n)
  else
    match n with
    | 0x80 => some (Char.ofNat 0x20AC)
    | 0x82 => some (Char.ofNat 0x201A)
    | 0x83 => some (Char.ofNat 0x0192)
    | 0x84 => some (Char.ofNat 0x201E)
    | 0x85 => some (Char.ofNat 0x2026)
    | 0x86 => some (Char.ofNat 0x2020)
    | 0x87 => some (Char.ofNat 0x2021)
    | 0x88 => some (Char.ofNat 0x02C6)
    | 0x89 => some (Char.ofNat 0x2030)
    | 0x8A => some (Char.ofNat 0x0160)
    | 0x8B => some (Char.ofNat 0x2039)
    | 0x8C => some (Char.ofNat 0x0152)
    | 0x8E => some (Char.ofNat 0x017D)
    | 0x91 => some (Char.ofNat 0x2018)
    | 0x92 => some (Char.ofNat 0x2019)
    | 0x93 => some (Char.ofNat 0x201C)
    | 0x94 => some (Char.ofNat 0x201D)
    | 0x95 => some (Char.ofNat 0x2022)
    | 0x96 => some (Char.ofNat 0x2013)
    | 0x97 => some (Char.ofNat 0x2014)
    | 0x98 => some (Char.ofNat 0x02DC)
    | 0x99 => some (Char.ofNat 0x2122)
    | 0x9A => some (Char.ofNat 0x0161)
    | 0x9B => some (Char.ofNat 0x203A)
    | 0x9C => some (Char.ofNat 0x0153)
    | 0x9E => some (Char.ofNat 0x017E)
    | 0x9F => some (Char.ofNat 0x0178)
    | _ => none

/-- `'cp1252'` decoding of a byte sequence. -/
def cp1252Decode (bs : List Byte) : Option (List Char) :=
  match bs with
  | [] => some []
  | b :: rest =>
    match cp1252Char b, cp1252Decode rest with
    | some c, some cs => some (c :: cs)
    | _, _ => none

/-- The encoding list of `yaml_to_dict`, each as a decoder. -/
def encodingCascade : List (List Byte → Option (List Char)) :=
  [utf8Decode, utf8SigDecode, fun bs => some (latin1Decode bs), cp1252Decode]

/-- The `for encoding in encodings` loop: first decoder that succeeds wins. -/
def firstSuccess (decoders : List (List Byte → Option (List Char))) (bs : List Byte) :
    Option (List Char) :=
  match decoders with
  | [] => none
  | d :: rest =>
    match d bs with
    | some t => some t
    | none => firstSuccess rest bs

/-- The decoded `content` of `yaml_to_dict` for raw file bytes. -/
def decodeContent (bs : List Byte) : Option (List Char) :=
  firstSuccess encodingCascade bs

/-! ### Emitters

`yaml.dump(..., Dumper=SafeDumper, default_flow_style=False,
allow_unicode=True, sort_keys=False)` and `json.dumps(..., indent=2,
ensure_ascii=False)` are external library code.  They are modelled for the
scalar subset of `Node` at the granularity the claims need: block/indented
style, one key per line, and — the contract the source pins down with
`sort_keys=False` (and `json.dumps`'s default) — mapping keys emitted in
insertion order, never re-sorted by the serializer. -/

/-- One decimal digit character. -/
def digitCh (d : Nat) : Char :=
  match d % 10 with
  | 0 => '0' | 1 => '1' | 2 => '2' | 3 => '3' | 4 => '4'
  | 5 => '5' | 6 => '6' | 7 => '7' | 8 => '8' | _ => '9'

/-- Decimal rendering of a natural number (fuel-driven division loop; the
fuel `n+1` always suffices). -/
def natTextAux : Nat → Nat → List Char
  | 0, _ => []
  | fuel + 1, n =>
    if n < 10 then [digitCh n]
    else natTextAux fuel (n / 10) ++ [digitCh (n % 10)]

/-- Decimal rendering of a natural number, as Python's `str` does. -/
def natText (n : Nat) : List Char := natTextAux (n + 1) n

/-- Decimal rendering of an integer, as Python's `str` does. -/
def intText : Int → List Char
  | .ofNat m => natText m
  | .negSucc m => '-' :: natText (m + 1)

/-- Can every character of a string be emitted as a plain (unquoted) YAML
scalar in this model?  Newlines, quotes and backslashes force quoting, which
keeps every emitted scalar on a single line. -/
def yamlPlainOk (c : Char) : Bool := c ≠ '\n' && c ≠ '"' && c ≠ '\\'

/-- Escape one character for a double-quoted scalar. -/
def escapeChar (c : Char) : List Char :=
  if c = '"' then ['\\', '"']
  else if c = '\\' then ['\\', '\\']
  else if c = '\n' then ['\\', 'n']
  else [c]

/-- Escape a whole string for a double-quoted scalar. -/
def escapeChars : List Char → List Char
  | [] => []
  | c :: cs => escapeChar c ++ escapeChars cs

/-- Rendered text of a YAML string scalar (plain when possible, else
double-quoted; `allow_unicode=True`, so non-ASCII stays literal). -/
def yamlStringText (cs : List Char) : List Char :=
  if cs = [] then ['\'', '\'']
  else if cs.all yamlPlainOk then cs
  else '"' :: escapeChars cs ++ ['"']

/-- Rendered single-line text of a scalar node (`None` → `null`, booleans
lowercase, integers decimal). Mappings/sequences are handled structurally by
the dump functions and never reach this. -/
def yamlScalarText : Node → List Char
  | .null => "null".data
  | .bool true => "true".data
  | .bool false => "false".data
  | .int n => intText n
  | .str s => yamlStringText s.data
  | _ => []

/-- Is a node a scalar (rendered inline after `key:` / `- `)? -/
def isScalar : Node → Bool
  | .seq _ => false
  | .map _ => false
  | _ => true

/-- `2*n` spaces of indentation. -/
def indentChars (n : Nat) : List Char := List.replicate (2 * n) ' '

mutual

/-- Block-style YAML dump of a document (the model of the pinned-down
`yaml.dump` call).  A scalar document is followed by the `...` document-end
marker, as PyYAML emits for root scalars. -/
def yamlDump : Node → List Char
  | .map [] => "\x7b\x7d\n".data
  | .seq [] => "[]\n".data
  | .map (p :: ps) => yamlDumpPairs 0 (p :: ps)
  | .seq (x :: xs) => yamlDumpItems 0 (x :: xs)
  | n => yamlScalarText n ++ '\n' :: "...\n".data

/-- Emit the entries of a mapping, one key per line, in list order. -/
def yamlDumpPairs (ind : Nat) : List (String × Node) → List Char
  | [] => []
  | (k, v) :: rest =>
    indentChars ind ++ k.data ++ ':' :: yamlValuePart (ind + 1) ind v
      ++ yamlDumpPairs ind rest

/-- Emit the elements of a sequence, one `-` per line, in list order. -/
def yamlDumpItems (ind : Nat) : List Node → List Char
  | [] => []
  | x :: rest =>
    indentChars ind ++ '-' :: yamlValuePart (ind + 1) (ind + 1) x
      ++ yamlDumpItems ind rest

/-- What follows a `key:` or `-` introducer: empty containers inline,
scalars inline after a space, nonempty containers as an indented block on
the following lines (`indm` is the child indent for mappings, `inds` for
sequences — PyYAML indents a sequence under a key at the key's own
level). -/
def yamlValuePart (indm inds : Nat) : Node → List Char
  | .map [] => ' ' :: "\x7b\x7d\n".data
  | .seq [] => ' ' :: "[]\n".data
  | .map (p :: ps) => '\n' :: yamlDumpPairs indm (p :: ps)
  | .seq (x :: xs) => '\n' :: yamlDumpItems inds (x :: xs)
  | n => ' ' :: yamlScalarText n ++ ['\n']

end

/-- `dict_to_yaml_string(data)`: apply the pkginfo ordering pass, serialize
without re-sorting, and strip the trailing newline(s) with
`.rstrip('\n')`. -/
def dict_to_yaml_string (data : Node) : List Char :=
  rstripNl (yamlDump (order_pkginfo_keys data))

/-- JSON escape of one character. -/
def jsonEscapeChar (c : Char) : List Char :=
  if c = '"' then ['\\', '"']
  else if c = '\\' then ['\\', '\\']
  else if c = '\n' then ['\\', 'n']
  else if c = '\t' then ['\\', 't']
  else if c = '\r' then ['\\', 'r']
  else [c]

/-- JSON escape of a string body. -/
def jsonEscape : List Char → List Char
  | [] => []
  | c :: cs => jsonEscapeChar c ++ jsonEscape cs

/-- A JSON string literal (`ensure_ascii=False`: non-ASCII stays literal). -/
def jsonStringText (s : String) : List Char :=
  '"' :: jsonEscape s.data ++ ['"']

mutual

/-- `json.dumps(data, indent=2, ensure_ascii=False)` at nesting depth
`ind`: keys in insertion order (`sort_keys` defaults to `False`). -/
def jsonDump (ind : Nat) : Node → List Char
  | .null => "null".data
  | .bool true => "true".data
  | .bool false => "false".data
  | .int n => intText n
  | .str s => jsonStringText s
  | .map [] => "\x7b\x7d".data
  | .seq [] => "[]".data
  | .map (p :: ps) =>
    '\x7b' :: '\n' :: jsonDumpPairs (ind + 1) (p :: ps) ++ '\n' :: indentChars ind ++ ['\x7d']
  | .seq (x :: xs) =>
    '[' :: '\n' :: jsonDumpItems (ind + 1) (x :: xs) ++ '\n' :: indentChars ind ++ [']']

/-- Mapping entries, comma-and-newline separated, each on its own line. -/
def jsonDumpPairs (ind : Nat) : List (String × Node) → List Char
  | [] => []
  | [(k, v)] => indentChars ind ++ jsonStringText k ++ ':' :: ' ' :: jsonDump ind v
  | (k, v) :: rest =>
    indentChars ind ++ jsonStringText k ++ ':' :: ' ' :: jsonDump ind v
      ++ ',' :: '\n' :: jsonDumpPairs ind rest

/-- Sequence elements, comma-and-newline separated. -/
def jsonDumpItems (ind : Nat) : List Node → List Char
  | [] => []
  | [x] => indentChars ind ++ jsonDump ind x
  | x :: rest => indentChars ind ++ jsonDump ind x ++ ',' :: '\n' :: jsonDumpItems ind rest

end

mutual

/-- `plistlib.dumps` model: structural XML property-list emission.  `None`
is not representable in a plist, so it fails — which is exactly the
exception path of `dict_to_plist_string`. -/
def plistDump : Node → Option (List Char)
  | .null => none
  | .bool true => some "<true/>".data
  | .bool false => some "<false/>".data
  | .int n => some ("<integer>".data ++ intText n ++ "</integer>".data)
  | .str s => some ("<string>".data ++ s.data ++ "</string>".data)
  | .seq [] => some "<array/>".data
  | .map [] => some "<dict/>".data
  | .seq (x :: xs) =>
    (plistDumpItems (x :: xs)).map (fun b => "<array>".data ++ b ++ "</array>".data)
  | .map (p :: ps) =>
    (plistDumpPairs (p :: ps)).map (fun b => "<dict>".data ++ b ++ "</dict>".data)

/-- Entries of a plist `<dict>`, in insertion order. -/
def plistDumpPairs : List (String × Node) → Option (List Char)
  | [] => some []
  | (k, v) :: rest =>
    match plistDump v, plistDumpPairs rest with
    | some b, some bs =>
      some ("<key>".data ++ k.data ++ "</key>".data ++ b ++ bs)
    | _, _ => none

/-- Elements of a plist `<array>`, in order. -/
def plistDumpItems : List Node → Option (List Char)
  | [] => some []
  | x :: rest =>
    match plistDump x, plistDumpItems rest with
    | some b, some bs => some (b ++ bs)
    | _, _ => none

end

/-- `dict_to_plist_string(data)`: strip `__ordered_keys__` markers, then
serialize; a serialization error yields `None`. -/
def dict_to_plist_string (data : Node) : Option (List Char) :=
  plistDump (remove_order_markers data)

/-! ### The `main` dispatch for a YAML input file -/

/-- The `output_format` argument. -/
inductive OutFormat where
  | plist
  | json
  | yaml

/-- The output-format dispatch of `main` on an already-ingested document:
only the YAML path applies `order_pkginfo_keys` (inside
`dict_to_yaml_string`); the JSON path serializes `data` as parsed. -/
def convertData (data : Node) : OutFormat → Option (List Char)
  | .plist => dict_to_plist_string data
  | .json => some (jsonDump 0 data)
  | .yaml => some (dict_to_yaml_string data)

/-- `main` for a `.yaml` input, from decoded content to (exit code, stdout):
`data is None` exits 1 with nothing printed; a falsy (empty) conversion
result also exits 1; otherwise the result is printed and the exit code
is 0. -/
def mainResult (parse : ParseFun) (content : List Char) (fmt : OutFormat) :
    Nat × Option (List Char) :=
  match yaml_to_dict parse content with
  | (none, _) => (1, none)
  | (some data, _) =>
    match convertData data fmt with
    | some r => if r = [] then (1, none) else (0, some r)
    | none => (1, none)

/-! ### Statement-side helpers -/

/-- The keys of a mapping node (in emitted order), `[]` on non-mappings. -/
def mapKeys : Node → List String
  | .map pairs => keysOf pairs
  | _ => []

/-- The policy selection rule as the spec words it, on a key list: a mapping
containing `packageid` orders via the receipt policy; one containing both
`path` and `type` (and no `packageid`) via the install-item policy; every
other mapping via the package-info policy. -/
def claimKeyOrder (keys : List String) : List String :=
  if "packageid" ∈ keys then sort_receipt_keys keys
  else if "path" ∈ keys ∧ "type" ∈ keys then sort_installs_keys keys
  else sort_pkginfo_keys keys

mutual

/-- Does every mapping node of a tree, at any depth, carry no marker key and
have its keys in exactly the order selected by `claimKeyOrder` from its own
key set? -/
def respectsClaimPolicy : Node → Bool
  | .map pairs =>
    decide (ORDER_MARKER ∉ keysOf pairs) &&
    decide (keysOf pairs = claimKeyOrder (keysOf pairs)) &&
    respectsClaimPolicyPairs pairs
  | .seq items => respectsClaimPolicySeq items
  | _ => true

/-- `respectsClaimPolicy` on every mapping value. -/
def respectsClaimPolicyPairs : List (String × Node) → Bool
  | [] => true
  | (_, v) :: rest => respectsClaimPolicy v && respectsClaimPolicyPairs rest

/-- `respectsClaimPolicy` on every sequence element. -/
def respectsClaimPolicySeq : List Node → Bool
  | [] => true
  | x :: rest => respectsClaimPolicy x && respectsClaimPolicySeq rest

end

/-- The top-level keys of an emitted `indent=2` JSON object, read back from
the text: the keys are exactly the quoted names opening the depth-one
lines. -/
def jsonTopKeysOfText (t : List Char) : List String :=
  (splitLines t).filterMap (fun l =>
    if l.take 3 = [' ', ' ', '"'] then some (String.mk ((l.drop 3).takeWhile (· ≠ '"')))
    else none)

/-- The key introduced by one indent-zero `key:` line of a block YAML text
(`none` for indented or sequence-item lines). -/
def yamlLineKey (l : List Char) : Option String :=
  match l with
  | [] => none
  | c :: _ =>
    if c = ' ' ∨ c = '-' then none
    else some (String.mk (l.takeWhile (fun c' => c' ≠ ':')))

/-- The leading keys (before the first `:`) of the indent-zero lines of a
block YAML text — the order in which top-level keys are emitted. -/
def yamlTopKeysOfText (t : List Char) : List String :=
  (splitLines t).filterMap yamlLineKey

/-- Modelled from the spec: the document-boundary splitting as the claim
words it — split the line list on three-dash separator lines (separator
lines are delimiters, not content), then discard empty leading segments. -/
def specSplitGroups : List (List Char) → List (List (List Char))
  | [] => [[]]
  | l :: rest =>
    if stripText l = dashMarker then [] :: specSplitGroups rest
    else
      match specSplitGroups rest with
      | [] => [[l]]
      | g :: gs => (l :: g) :: gs

/-- Modelled from the spec: the segments of the claim's splitting rule. -/
def specSegments (lines : List (List Char)) : List (List Char) :=
  ((specSplitGroups lines).map joinNl).dropWhile (· = [])

/-- Modelled from the spec: the document-boundary recovery strategy exactly
as the claim describes it, differing from `parse_chunked_yaml` only in using
the claim's splitting rule. -/
def parse_chunked_spec (parse : ParseFun) (content : List Char) :
    Except Unit (Option Node) × List String :=
  let lines := splitLines content
  if lines.length < 100 then (parse content, [])
  else
    let docs := specSegments lines
    if docs.length > 1 then scanDocs parse docs 0 docs.length
    else (.error (), [])

/-- Did a parse attempt succeed (with any document)? -/
def okFlag : Except Unit (Option Node) → Bool
  | .ok _ => true
  | .error _ => false

/-- A well-formed emitted block: nonempty, ending in exactly one newline
(the last character is `'\n'` and the one before it is not). -/
def goodBlock (t : List Char) : Prop :=
  ∃ u c, t = u ++ [c, '\n'] ∧ c ≠ '\n'

/-- A mapping key that round-trips through the line-oriented block format
unambiguously: no newline, no colon, and not starting like indentation or a
sequence dash. -/
def yamlKeySafe (k : String) : Bool :=
  decide ('\n' ∉ k.data) && decide (':' ∉ k.data) &&
    (match k.data with
     | [] => true
     | c :: _ => !(c = ' ' || c = '-'))

/-- The example document of the JSON-output scenario, as `yaml.safe_load`
ingests `\x7bname: foo, version: "1.0", display_name: Foo\x7d` (mapping keys
in source order). -/
def jsonDemoDoc : Node :=
  .map [("name", .str "foo"), ("version", .str "1.0"), ("display_name", .str "Foo")]

/-! ## Lemma layer -/

instance (order : List String) : IsTotal String (idxLe order) :=
  ⟨fun a b => Nat.le_total (keyIndex order a) (keyIndex order b)⟩

instance (order : List String) : IsTrans String (idxLe order) :=
  ⟨fun _ _ _ h1 h2 => Nat.le_trans h1 h2⟩

instance : IsTotal String alphaLe := ⟨fun a b => le_total a b⟩

instance : IsTrans String alphaLe := ⟨fun _ _ _ h1 h2 => le_trans h1 h2⟩

instance : IsAntisymm String alphaLe := ⟨fun _ _ h1 h2 => le_antisymm h1 h2⟩

/-- Structural induction over the document tree, with hypotheses for the
elements of nested lists. -/
theorem nodeInd {motive : Node → Prop}
    (hnull : motive .null) (hbool : ∀ b, motive (.bool b))
    (hint : ∀ n, motive (.int n)) (hstr : ∀ s, motive (.str s))
    (hseq : ∀ items, (∀ x ∈ items, motive x) → motive (.seq items))
    (hmap : ∀ pairs, (∀ p ∈ pairs, motive p.2) → motive (.map pairs)) :
    ∀ n, motive n
  | .null => hnull
  | .bool b => hbool b
  | .int n => hint n
  | .str s => hstr s
  | .seq items =>
    hseq items (fun x hx =>
      have : sizeOf x < 1 + sizeOf items := by
        have := List.sizeOf_lt_of_mem hx
        omega
      nodeInd hnull hbool hint hstr hseq hmap x)
  | .map pairs =>
    hmap pairs (fun p hp =>
      have : sizeOf p.2 < 1 + sizeOf pairs := by
        have h1 := List.sizeOf_lt_of_mem hp
        have h2 : sizeOf p.2 < sizeOf p := by
          obtain ⟨a, b⟩ := p
          simp only [Prod.mk.sizeOf_spec]
          omega
        omega
      nodeInd hnull hbool hint hstr hseq hmap p.2)
termination_by n => sizeOf n

/-- `orderPairs` maps `order_pkginfo_keys` over the values. -/
theorem orderPairs_eq_map (l : List (String × Node)) :
    orderPairs l = l.map (fun p => (p.1, order_pkginfo_keys p.2)) := by
  induction l with
  | nil => rfl
  | cons p rest ih => obtain ⟨k, v⟩ := p; simp [orderPairs, ih]

/-- `orderSeq` maps `order_pkginfo_keys` over the elements. -/
theorem orderSeq_eq_map (l : List Node) :
    orderSeq l = l.map order_pkginfo_keys := by
  induction l with
  | nil => rfl
  | cons x rest ih => simp [orderSeq, ih]

/-- Marker stripping commutes with value ordering. -/
theorem cleanPairs_orderPairs (l : List (String × Node)) :
    cleanPairs (orderPairs l) = orderPairs (cleanPairs l) := by
  simp only [cleanPairs, orderPairs_eq_map, List.filter_map]
  rfl

/-- Ordering the values leaves the key sequence unchanged. -/
theorem keysOf_orderPairs (l : List (String × Node)) :
    keysOf (orderPairs l) = keysOf l := by
  simp only [keysOf, orderPairs_eq_map, List.map_map]
  rfl

/-- Marker stripping does not depend on the values. -/
theorem keysOf_cleanPairs (l : List (String × Node)) :
    keysOf (cleanPairs l) = (keysOf l).filter (fun k => k ≠ ORDER_MARKER) := by
  induction l with
  | nil => rfl
  | cons p rest ih =>
    obtain ⟨k, v⟩ := p
    by_cases h : k = ORDER_MARKER <;> simp [cleanPairs, keysOf, h] <;>
      simpa [cleanPairs, keysOf] using ih

/-- Looking up in a value-mapped association list maps the value. -/
theorem lookup_map_value (f : Node → Node) (l : List (String × Node)) (k : String) :
    List.lookup k (l.map (fun p => (p.1, f p.2))) = (List.lookup k l).map f := by
  induction l with
  | nil => rfl
  | cons p rest ih =>
    obtain ⟨a, b⟩ := p
    by_cases h : k = a
    · subst h; simp [List.lookup_cons]
    · have hb : (k == a) = false := beq_eq_false_iff_ne.mpr h
      simp [List.lookup_cons, hb, ih]

/-- The values the rebuilt mapping draws from are the ordered originals. -/
theorem lookupD_clean_orderPairs (l : List (String × Node)) (k : String) :
    lookupD (cleanPairs (orderPairs l)) k
      = order_pkginfo_keys (lookupD (cleanPairs l) k) := by
  rw [cleanPairs_orderPairs, lookupD, orderPairs_eq_map, lookup_map_value, lookupD]
  cases List.lookup k (cleanPairs l) with
  | none => rfl
  | some v => rfl

/-- Looking up a key of a key-indexed table built from a function returns
that function's value. -/
theorem lookup_tabulate (g : String → Node) (ks : List String) (k : String)
    (hk : k ∈ ks) :
    List.lookup k (ks.map (fun k' => (k', g k'))) = some (g k) := by
  induction ks with
  | nil => cases hk
  | cons a rest ih =>
    by_cases h : k = a
    · subst h; simp [List.lookup_cons]
    · have hmem : k ∈ rest := by
        cases hk with
        | head => exact absurd rfl h
        | tail _ h2 => exact h2
      have hb : (k == a) = false := beq_eq_false_iff_ne.mpr h
      simp [List.lookup_cons, hb, ih hmem]

/-- A successful lookup comes from a member pair. -/
theorem lookup_mem {l : List (String × Node)} {k : String} {v : Node}
    (h : List.lookup k l = some v) : (k, v) ∈ l := by
  induction l with
  | nil => cases h
  | cons p rest ih =>
    obtain ⟨a, b⟩ := p
    by_cases hk : k = a
    · subst hk
      simp [List.lookup_cons] at h
      subst h; exact List.mem_cons_self _ _
    · have hb : (k == a) = false := beq_eq_false_iff_ne.mpr hk
      simp [List.lookup_cons, hb] at h
      exact List.mem_cons_of_mem _ (ih h)

/-! ### The two-bucket sorts (receipt / install-item policies) -/

/-- A two-bucket policy sort permutes its input. -/
theorem twoBucket_perm (R keys : List String) :
    List.insertionSort (idxLe R) (keys.filter (fun k => k ∈ R))
      ++ List.insertionSort alphaLe (keys.filter (fun k => k ∉ R))
      |>.Perm keys := by
  refine List.Perm.trans
    (List.Perm.append (List.perm_insertionSort _ _) (List.perm_insertionSort _ _)) ?_
  have h := List.filter_append_perm (fun k => decide (k ∈ R)) keys
  simpa [decide_not] using h

/-- `sort_receipt_keys` permutes its input. -/
theorem sort_receipt_keys_perm (keys : List String) : (sort_receipt_keys keys).Perm keys :=
  twoBucket_perm RECEIPT_KEY_ORDER keys

/-- `sort_installs_keys` permutes its input. -/
theorem sort_installs_keys_perm (keys : List String) : (sort_installs_keys keys).Perm keys :=
  twoBucket_perm INSTALLS_KEY_ORDER keys

/-- Filtering a sort output by a property all its elements enjoy keeps it. -/
theorem filter_sort_all {r : String → String → Prop} [DecidableRel r]
    {p : String → Bool} {l : List String} (h : ∀ x ∈ l, p x = true) :
    (List.insertionSort r l).filter p = List.insertionSort r l :=
  List.filter_eq_self.mpr (fun x hx => h x ((List.perm_insertionSort r l).subset hx))

/-- Filtering a sort output by a property none of its elements enjoy empties it. -/
theorem filter_sort_none {r : String → String → Prop} [DecidableRel r]
    {p : String → Bool} {l : List String} (h : ∀ x ∈ l, p x = false) :
    (List.insertionSort r l).filter p = [] :=
  List.filter_eq_nil_iff.mpr (fun x hx => by
    have := h x ((List.perm_insertionSort r l).subset hx)
    simp [this])

/-- A two-bucket policy sort is idempotent. -/
theorem twoBucket_idem (R keys : List String) :
    List.insertionSort (idxLe R)
        ((List.insertionSort (idxLe R) (keys.filter (fun k => k ∈ R))
          ++ List.insertionSort alphaLe (keys.filter (fun k => k ∉ R))).filter
          (fun k => k ∈ R))
      ++ List.insertionSort alphaLe
        ((List.insertionSort (idxLe R) (keys.filter (fun k => k ∈ R))
          ++ List.insertionSort alphaLe (keys.filter (fun k => k ∉ R))).filter
          (fun k => k ∉ R))
      = List.insertionSort (idxLe R) (keys.filter (fun k => k ∈ R))
        ++ List.insertionSort alphaLe (keys.filter (fun k => k ∉ R)) := by
  have hin : ∀ x ∈ keys.filter (fun k => k ∈ R), decide (x ∈ R) = true := by
    intro x hx; exact (List.mem_filter.mp hx).2
  have hout : ∀ x ∈ keys.filter (fun k => k ∉ R), decide (x ∈ R) = false := by
    intro x hx
    have h2 := (List.mem_filter.mp hx).2
    simpa [decide_not] using h2
  rw [List.filter_append, List.filter_append]
  rw [filter_sort_all hin, filter_sort_none (p := fun k => decide (k ∈ R)) hout]
  rw [filter_sort_none (p := fun k => decide (k ∉ R)) (fun x hx => by simp [hin x hx]),
    filter_sort_all (p := fun k => decide (k ∉ R)) (fun x hx => by simp [hout x hx])]
  rw [List.append_nil, List.nil_append]
  rw [(List.sorted_insertionSort _ _).insertionSort_eq,
    (List.sorted_insertionSort _ _).insertionSort_eq]

/-- `sort_receipt_keys` is idempotent. -/
theorem sort_receipt_keys_idem (keys : List String) :
    sort_receipt_keys (sort_receipt_keys keys) = sort_receipt_keys keys :=
  twoBucket_idem RECEIPT_KEY_ORDER keys

/-- `sort_installs_keys` is idempotent. -/
theorem sort_installs_keys_idem (keys : List String) :
    sort_installs_keys (sort_installs_keys keys) = sort_installs_keys keys :=
  twoBucket_idem INSTALLS_KEY_ORDER keys

/-! ### The three-bucket pkginfo sort -/

/-- The three chunks of `sort_pkginfo_keys`, spelled out. -/
theorem sort_pkginfo_keys_chunks (keys : List String) :
    sort_pkginfo_keys keys
      = List.insertionSort (idxLe PRIORITY_KEYS) (keys.filter (fun k => k ∈ PRIORITY_KEYS))
        ++ List.insertionSort alphaLe
            (keys.filter (fun k => k ∉ PRIORITY_KEYS ∧ k ∉ LAST_KEYS))
        ++ List.insertionSort alphaLe
            (keys.filter (fun k => k ∉ PRIORITY_KEYS ∧ k ∈ LAST_KEYS)) := rfl

/-- `sort_pkginfo_keys` permutes its input. -/
theorem sort_pkginfo_keys_perm (keys : List String) :
    (sort_pkginfo_keys keys).Perm keys := by
  rw [sort_pkginfo_keys_chunks, List.append_assoc]
  have hM : keys.filter (fun k => k ∉ PRIORITY_KEYS ∧ k ∉ LAST_KEYS)
      = (keys.filter (fun k => k ∉ PRIORITY_KEYS)).filter (fun k => k ∉ LAST_KEYS) := by
    rw [List.filter_filter]
    apply List.filter_congr
    intro x _
    by_cases hp : x ∈ PRIORITY_KEYS <;> by_cases hl : x ∈ LAST_KEYS <;> simp [hp, hl]
  have hE : keys.filter (fun k => k ∉ PRIORITY_KEYS ∧ k ∈ LAST_KEYS)
      = (keys.filter (fun k => k ∉ PRIORITY_KEYS)).filter (fun k => k ∈ LAST_KEYS) := by
    rw [List.filter_filter]
    apply List.filter_congr
    intro x _
    by_cases hp : x ∈ PRIORITY_KEYS <;> by_cases hl : x ∈ LAST_KEYS <;> simp [hp, hl]
  have h2 : (keys.filter (fun k => k ∉ PRIORITY_KEYS ∧ k ∉ LAST_KEYS)
      ++ keys.filter (fun k => k ∉ PRIORITY_KEYS ∧ k ∈ LAST_KEYS)).Perm
      (keys.filter (fun k => k ∉ PRIORITY_KEYS)) := by
    rw [hM, hE]
    refine List.perm_append_comm.trans ?_
    have h1 := List.filter_append_perm (fun k => decide (k ∈ LAST_KEYS))
      (keys.filter (fun k => k ∉ PRIORITY_KEYS))
    simpa [decide_not] using h1
  have h3 := List.filter_append_perm (fun k => decide (k ∈ PRIORITY_KEYS)) keys
  refine List.Perm.trans
    (List.Perm.append (List.perm_insertionSort _ _)
      (List.Perm.append (List.perm_insertionSort _ _) (List.perm_insertionSort _ _))) ?_
  refine (List.Perm.append_left _ h2).trans ?_
  simpa [decide_not] using h3

/-- `sort_pkginfo_keys` is idempotent. -/
theorem sort_pkginfo_keys_idem (keys : List String) :
    sort_pkginfo_keys (sort_pkginfo_keys keys) = sort_pkginfo_keys keys := by
  have hfm : ∀ x ∈ keys.filter (fun k => k ∈ PRIORITY_KEYS), x ∈ PRIORITY_KEYS := by
    intro x hx
    have h := (List.mem_filter.mp hx).2
    simpa using h
  have hmm : ∀ x ∈ keys.filter (fun k => k ∉ PRIORITY_KEYS ∧ k ∉ LAST_KEYS),
      x ∉ PRIORITY_KEYS ∧ x ∉ LAST_KEYS := by
    intro x hx
    have h := (List.mem_filter.mp hx).2
    simpa using h
  have hem : ∀ x ∈ keys.filter (fun k => k ∉ PRIORITY_KEYS ∧ k ∈ LAST_KEYS),
      x ∉ PRIORITY_KEYS ∧ x ∈ LAST_KEYS := by
    intro x hx
    have h := (List.mem_filter.mp hx).2
    simpa using h
  conv_lhs => rw [sort_pkginfo_keys_chunks keys, sort_pkginfo_keys_chunks]
  rw [List.filter_append, List.filter_append, List.filter_append, List.filter_append,
    List.filter_append, List.filter_append]
  rw [filter_sort_all (fun x hx => by simp [hfm x hx]),
    filter_sort_none (fun x hx => by simp [(hmm x hx).1]),
    filter_sort_none (fun x hx => by simp [(hem x hx).1]),
    filter_sort_none (fun x hx => by simp [hfm x hx]),
    filter_sort_all (fun x hx => by simp [(hmm x hx).1, (hmm x hx).2]),
    filter_sort_none (fun x hx => by simp [(hem x hx).1, (hem x hx).2]),
    filter_sort_none (fun x hx => by simp [hfm x hx]),
    filter_sort_none (fun x hx => by simp [(hmm x hx).1, (hmm x hx).2]),
    filter_sort_all (fun x hx => by simp [(hem x hx).1, (hem x hx).2])]
  rw [List.append_nil, List.append_nil, List.append_nil,
    List.nil_append, List.nil_append, List.nil_append]
  rw [(List.sorted_insertionSort _ _).insertionSort_eq,
    (List.sorted_insertionSort _ _).insertionSort_eq,
    (List.sorted_insertionSort _ _).insertionSort_eq]
  exact (sort_pkginfo_keys_chunks keys).symm

/-! ### Policy selection -/

/-- The claim-side selection permutes its input. -/
theorem claimKeyOrder_perm (keys : List String) : (claimKeyOrder keys).Perm keys := by
  unfold claimKeyOrder
  split_ifs with h1 h2
  exacts [sort_receipt_keys_perm keys, sort_installs_keys_perm keys,
    sort_pkginfo_keys_perm keys]

/-- Selection keeps the key set. -/
theorem claimKeyOrder_mem (keys : List String) (x : String) :
    x ∈ claimKeyOrder keys ↔ x ∈ keys :=
  (claimKeyOrder_perm keys).mem_iff

/-- Selection-plus-sort is idempotent: re-running the policy on an already
ordered key list changes nothing. -/
theorem claimKeyOrder_idem (keys : List String) :
    claimKeyOrder (claimKeyOrder keys) = claimKeyOrder keys := by
  by_cases h1 : "packageid" ∈ keys
  · have e1 : claimKeyOrder keys = sort_receipt_keys keys := by
      simp [claimKeyOrder, h1]
    have h1s : "packageid" ∈ sort_receipt_keys keys :=
      (sort_receipt_keys_perm keys).mem_iff.mpr h1
    rw [e1, show claimKeyOrder (sort_receipt_keys keys)
        = sort_receipt_keys (sort_receipt_keys keys) from by simp [claimKeyOrder, h1s],
      sort_receipt_keys_idem]
  · by_cases h2 : "path" ∈ keys ∧ "type" ∈ keys
    · have e2 : claimKeyOrder keys = sort_installs_keys keys := by
        simp [claimKeyOrder, h1, h2]
      have h1s : "packageid" ∉ sort_installs_keys keys := fun hc =>
        h1 ((sort_installs_keys_perm keys).mem_iff.mp hc)
      have h2s : "path" ∈ sort_installs_keys keys ∧ "type" ∈ sort_installs_keys keys :=
        ⟨(sort_installs_keys_perm keys).mem_iff.mpr h2.1,
         (sort_installs_keys_perm keys).mem_iff.mpr h2.2⟩
      rw [e2, show claimKeyOrder (sort_installs_keys keys)
          = sort_installs_keys (sort_installs_keys keys) from by
            simp [claimKeyOrder, h1s, h2s],
        sort_installs_keys_idem]
    · have e3 : claimKeyOrder keys = sort_pkginfo_keys keys := by
        simp [claimKeyOrder, h1, h2]
      have h1s : "packageid" ∉ sort_pkginfo_keys keys := fun hc =>
        h1 ((sort_pkginfo_keys_perm keys).mem_iff.mp hc)
      have h2s : ¬("path" ∈ sort_pkginfo_keys keys ∧ "type" ∈ sort_pkginfo_keys keys) := by
        intro hc
        exact h2 ⟨(sort_pkginfo_keys_perm keys).mem_iff.mp hc.1,
          (sort_pkginfo_keys_perm keys).mem_iff.mp hc.2⟩
      rw [e3, show claimKeyOrder (sort_pkginfo_keys keys)
          = sort_pkginfo_keys (sort_pkginfo_keys keys) from by
            simp [claimKeyOrder, h1s, h2s],
        sort_pkginfo_keys_idem]

/-- The source's dispatch (`is_receipt_dict` / `is_installs_dict` on the
clean mapping) agrees with the claim-side selection on the key list. -/
theorem selectKeyOrder_eq_claim (pairs : List (String × Node)) :
    selectKeyOrder pairs = claimKeyOrder (keysOf pairs) := by
  unfold selectKeyOrder claimKeyOrder is_receipt_dict is_installs_dict
  by_cases h1 : "packageid" ∈ keysOf pairs <;>
    by_cases h2 : "path" ∈ keysOf pairs <;>
    by_cases h3 : "type" ∈ keysOf pairs <;>
    simp [h1, h2, h3]

/-- Canonical unfolding of the ordering pass on a mapping: strip markers,
select the order from the clean keys, rebuild with recursively ordered
values — the exact shape of the Python loop. -/
theorem order_map_eq (pairs : List (String × Node)) :
    order_pkginfo_keys (.map pairs)
      = .map ((claimKeyOrder (keysOf (cleanPairs pairs))).map
          (fun k => (k, order_pkginfo_keys (lookupD (cleanPairs pairs) k)))) := by
  show Node.map ((selectKeyOrder (cleanPairs (orderPairs pairs))).map
      (fun k => (k, lookupD (cleanPairs (orderPairs pairs)) k))) = _
  rw [selectKeyOrder_eq_claim]
  have hk : keysOf (cleanPairs (orderPairs pairs)) = keysOf (cleanPairs pairs) := by
    rw [cleanPairs_orderPairs, keysOf_orderPairs]
  rw [hk]
  congr 1
  apply List.map_congr_left
  intro k _
  rw [lookupD_clean_orderPairs]

/-- Keys of a table built from a key list and a value function. -/
theorem keysOf_tabulate (g : String → Node) (ks : List String) :
    keysOf (ks.map (fun k => (k, g k))) = ks := by
  simp only [keysOf, List.map_map]
  exact List.map_id ks

/-- The key sequence of an ordered mapping is the policy order of its clean
key set. -/
theorem mapKeys_order_map (pairs : List (String × Node)) :
    mapKeys (order_pkginfo_keys (.map pairs))
      = claimKeyOrder (keysOf (cleanPairs pairs)) := by
  rw [order_map_eq]
  show keysOf _ = _
  rw [keysOf_tabulate]

/-- The marker key never survives stripping. -/
theorem marker_not_mem_clean (pairs : List (String × Node)) :
    ORDER_MARKER ∉ keysOf (cleanPairs pairs) := by
  rw [keysOf_cleanPairs]
  intro h
  have h2 := (List.mem_filter.mp h).2
  simp at h2

/-- Stripping is the identity on marker-free mappings. -/
theorem cleanPairs_eq_self {pairs : List (String × Node)}
    (hm : ORDER_MARKER ∉ keysOf pairs) : cleanPairs pairs = pairs := by
  apply List.filter_eq_self.mpr
  intro p hp
  have : p.1 ∈ keysOf pairs := List.mem_map.mpr ⟨p, hp, rfl⟩
  exact decide_eq_true (fun he => hm (he ▸ this))

/-- The rebuilt mapping of an ordering step is marker-free, so stripping it
is the identity. -/
theorem clean_tabulate (g : String → Node) {K : List String}
    (hK : ORDER_MARKER ∉ K) :
    cleanPairs (K.map (fun k => (k, g k))) = K.map (fun k => (k, g k)) := by
  apply cleanPairs_eq_self
  rw [keysOf_tabulate]
  exact hK

/-- The ordered tree's mappings never contain the marker key. -/
theorem marker_not_mem_claimKeyOrder (pairs : List (String × Node)) :
    ORDER_MARKER ∉ claimKeyOrder (keysOf (cleanPairs pairs)) := fun hm =>
  marker_not_mem_clean pairs ((claimKeyOrder_mem _ _).mp hm)

/-- `lookupD` into the rebuilt mapping returns the tabulated value. -/
theorem lookupD_tabulate (g : String → Node) {K : List String} {k : String}
    (hk : k ∈ K) : lookupD (K.map (fun k' => (k', g k'))) k = g k := by
  unfold lookupD
  rw [lookup_tabulate g K k hk]
  rfl

/-- The ordering pass is idempotent (helper; quantified form of claim C3). -/
theorem order_pkginfo_keys_idem :
    ∀ n, order_pkginfo_keys (order_pkginfo_keys n) = order_pkginfo_keys n := by
  intro n
  induction n using nodeInd with
  | hnull => rfl
  | hbool b => rfl
  | hint n => rfl
  | hstr s => rfl
  | hseq items ih =>
    show Node.seq (orderSeq (orderSeq items)) = Node.seq (orderSeq items)
    rw [orderSeq_eq_map, orderSeq_eq_map, List.map_map]
    congr 1
    apply List.map_congr_left
    intro x hx
    simpa using ih x hx
  | hmap pairs ih =>
    rw [order_map_eq pairs]
    rw [order_map_eq]
    rw [clean_tabulate _ (marker_not_mem_claimKeyOrder pairs), keysOf_tabulate,
      claimKeyOrder_idem]
    congr 1
    apply List.map_congr_left
    intro k hkK
    rw [lookupD_tabulate _ hkK]
    cases hl : List.lookup k (cleanPairs pairs) with
    | none =>
      unfold lookupD
      rw [hl]
      rfl
    | some v =>
      have hv : (k, v) ∈ cleanPairs pairs := lookup_mem hl
      have hvp : (k, v) ∈ pairs := List.mem_of_mem_filter hv
      have hih := ih (k, v) hvp
      unfold lookupD
      rw [hl]
      simpa using hih

/-- `respectsClaimPolicyPairs` is the conjunction over the values. -/
theorem respectsClaimPolicyPairs_eq (l : List (String × Node)) :
    respectsClaimPolicyPairs l = l.all (fun p => respectsClaimPolicy p.2) := by
  induction l with
  | nil => rfl
  | cons p rest ih => obtain ⟨k, v⟩ := p; simp [respectsClaimPolicyPairs, ih]

/-- `respectsClaimPolicySeq` is the conjunction over the elements. -/
theorem respectsClaimPolicySeq_eq (l : List Node) :
    respectsClaimPolicySeq l = l.all respectsClaimPolicy := by
  induction l with
  | nil => rfl
  | cons x rest ih => simp [respectsClaimPolicySeq, ih]

/-- Every mapping of an ordered tree is, by itself, in claim-policy order
(helper; quantified form of the per-node part of claim C2). -/
theorem respects_order :
    ∀ n, respectsClaimPolicy (order_pkginfo_keys n) = true := by
  intro n
  induction n using nodeInd with
  | hnull => rfl
  | hbool b => rfl
  | hint n => rfl
  | hstr s => rfl
  | hseq items ih =>
    show respectsClaimPolicySeq (orderSeq items) = true
    rw [respectsClaimPolicySeq_eq, orderSeq_eq_map]
    apply List.all_eq_true.mpr
    intro x hx
    obtain ⟨y, hy, rfl⟩ := List.mem_map.mp hx
    exact ih y hy
  | hmap pairs ih =>
    rw [order_map_eq pairs]
    show (decide (ORDER_MARKER ∉ keysOf _) && decide (keysOf _ = claimKeyOrder (keysOf _))
      && respectsClaimPolicyPairs _) = true
    rw [keysOf_tabulate]
    have h1 : ORDER_MARKER ∉ claimKeyOrder (keysOf (cleanPairs pairs)) :=
      marker_not_mem_claimKeyOrder pairs
    have h2 : claimKeyOrder (keysOf (cleanPairs pairs))
        = claimKeyOrder (claimKeyOrder (keysOf (cleanPairs pairs))) :=
      (claimKeyOrder_idem _).symm
    rw [respectsClaimPolicyPairs_eq]
    have h3 : ∀ p ∈ (claimKeyOrder (keysOf (cleanPairs pairs))).map
        (fun k => (k, order_pkginfo_keys (lookupD (cleanPairs pairs) k))),
        respectsClaimPolicy p.2 = true := by
      intro p hp
      obtain ⟨k, hk, rfl⟩ := List.mem_map.mp hp
      show respectsClaimPolicy (order_pkginfo_keys (lookupD (cleanPairs pairs) k)) = true
      cases hl : List.lookup k (cleanPairs pairs) with
      | none =>
        unfold lookupD
        rw [hl]
        rfl
      | some v =>
        have hv : (k, v) ∈ cleanPairs pairs := lookup_mem hl
        have hvp : (k, v) ∈ pairs := List.mem_of_mem_filter hv
        have hih := ih (k, v) hvp
        unfold lookupD
        rw [hl]
        simpa using hih
    simp [h1, ← h2, List.all_eq_true.mpr h3]

/-! ### Shape of the package-info order -/

/-- Sorted lists that are permutations of each other are equal, assuming
antisymmetry only on the members. -/
theorem eq_of_perm_sorted_antisymmOn {α : Type} {r : α → α → Prop} :
    ∀ {l₁ l₂ : List α}, l₁.Perm l₂ → l₁.Sorted r → l₂.Sorted r →
      (∀ a ∈ l₁, ∀ b ∈ l₁, r a b → r b a → a = b) → l₁ = l₂ := by
  intro l₁
  induction l₁ with
  | nil =>
    intro l₂ hp _ _ _
    exact (List.Perm.eq_nil hp.symm).symm
  | cons a t ih =>
    intro l₂ hp hs₁ hs₂ anti
    cases l₂ with
    | nil => exact (List.cons_ne_nil a t (List.Perm.eq_nil hp)).elim
    | cons b u =>
      have hab : a = b := by
        have hbmem : b ∈ a :: t := hp.mem_iff.mpr (List.mem_cons_self b u)
        have hamem : a ∈ b :: u := hp.mem_iff.mp (List.mem_cons_self a t)
        rcases List.mem_cons.mp hbmem with hba | hbt
        · exact hba.symm
        rcases List.mem_cons.mp hamem with hab' | hau
        · exact hab'
        have h1 : r a b := (List.sorted_cons.mp hs₁).1 b hbt
        have h2 : r b a := (List.sorted_cons.mp hs₂).1 a hau
        exact anti a (List.mem_cons_self a t) b hbmem h1 h2
      subst hab
      have hp' : t.Perm u := hp.cons_inv
      have ht := ih hp' (List.sorted_cons.mp hs₁).2 (List.sorted_cons.mp hs₂).2
        (fun x hx y hy h1 h2 =>
          anti x (List.mem_cons_of_mem _ hx) y (List.mem_cons_of_mem _ hy) h1 h2)
      rw [ht]

/-- Sorting a duplicate-free set of priority keys by their position in the
priority list yields the priority list filtered to the present keys. -/
theorem sortIdx_filter_eq (P : List String) (hP : P.Nodup)
    (hPidx : ∀ a ∈ P, ∀ b ∈ P, keyIndex P a = keyIndex P b → a = b)
    (hPsorted : List.Pairwise (idxLe P) P)
    (l : List String) (hl : l.Nodup) (hsub : ∀ x ∈ l, x ∈ P) :
    List.insertionSort (idxLe P) l = P.filter (fun k => k ∈ l) := by
  have hmem : ∀ x ∈ List.insertionSort (idxLe P) l, x ∈ l := fun x hx =>
    (List.perm_insertionSort _ _).mem_iff.mp hx
  apply eq_of_perm_sorted_antisymmOn (r := idxLe P)
  · refine (List.perm_insertionSort _ _).trans ?_
    have hnd2 : (P.filter (fun k => k ∈ l)).Nodup := hP.filter _
    refine (List.perm_ext_iff_of_nodup hl hnd2).mpr ?_
    intro x
    simp only [List.mem_filter, decide_eq_true_eq]
    exact ⟨fun hx => ⟨hsub x hx, hx⟩, fun hx => hx.2⟩
  · exact List.sorted_insertionSort _ _
  · exact List.Pairwise.sublist (List.filter_sublist P) hPsorted
  · intro x hx y hy h1 h2
    exact hPidx x (hsub x (hmem x hx)) y (hsub y (hmem y hy)) (Nat.le_antisymm h1 h2)

/-- In a duplicate-free list, filtering for a single key keeps exactly its
(unique) occurrence. -/
theorem filter_eq_key_of_nodup (a : String) :
    ∀ (l : List String), l.Nodup →
      l.filter (fun k => k = a) = if a ∈ l then [a] else [] := by
  intro l
  induction l with
  | nil => intro _; simp
  | cons b t ih =>
    intro hnd
    obtain ⟨hb, ht⟩ := List.nodup_cons.mp hnd
    by_cases hba : b = a
    · subst hba
      have hnone : t.filter (fun k => k = b) = [] :=
        List.filter_eq_nil_iff.mpr (fun x hx => by
          simp only [decide_eq_true_eq]
          intro he
          exact hb (he ▸ hx))
      simp [List.filter_cons, hnone]
    · have hmem : a ∈ b :: t ↔ a ∈ t := by
        constructor
        · intro h
          rcases List.mem_cons.mp h with h1 | h2
          · exact (hba h1.symm).elim
          · exact h2
        · exact fun h => List.mem_cons_of_mem _ h
      rw [List.filter_cons]
      simp only [decide_eq_true_eq, hba, if_false]
      rw [ih ht]
      by_cases hat : a ∈ t <;> simp [hat, hmem]

/-- The trailing `_metadata` chunk of `sort_pkginfo_keys`, for duplicate-free
key lists. -/
theorem end_chunk_eq (keys : List String) (hnd : keys.Nodup) :
    List.insertionSort alphaLe
        (keys.filter (fun k => k ∉ PRIORITY_KEYS ∧ k ∈ LAST_KEYS))
      = if "_metadata" ∈ keys then ["_metadata"] else [] := by
  have hfe : keys.filter (fun k => k ∉ PRIORITY_KEYS ∧ k ∈ LAST_KEYS)
      = keys.filter (fun k => k = "_metadata") := by
    apply List.filter_congr
    intro x _
    by_cases h : x = "_metadata"
    · subst h; simp [PRIORITY_KEYS, LAST_KEYS]
    · simp [h, LAST_KEYS]
  rw [hfe, filter_eq_key_of_nodup _ keys hnd]
  by_cases h : "_metadata" ∈ keys <;> simp [h]

/-- The leading priority chunk of `sort_pkginfo_keys`, for duplicate-free
key lists. -/
theorem first_chunk_eq (keys : List String) (hnd : keys.Nodup) :
    List.insertionSort (idxLe PRIORITY_KEYS)
        (keys.filter (fun k => k ∈ PRIORITY_KEYS))
      = PRIORITY_KEYS.filter (fun k => k ∈ keys) := by
  have h := sortIdx_filter_eq PRIORITY_KEYS (by decide)
    (by decide) (by decide)
    (keys.filter (fun k => k ∈ PRIORITY_KEYS)) (hnd.filter _)
    (fun x hx => by
      have h2 := (List.mem_filter.mp hx).2
      simpa using h2)
  rw [h]
  apply List.filter_congr
  intro x hx
  simp only [List.mem_filter, decide_eq_true_eq, decide_eq_decide]
  exact ⟨fun h2 => h2.1, fun h2 => ⟨h2, hx⟩⟩

/-- The full chunk shape of `sort_pkginfo_keys` on a duplicate-free key
list: present priority keys in priority order, then the alphabetical middle,
then `_metadata`. -/
theorem sort_pkginfo_keys_shape (keys : List String) (hnd : keys.Nodup) :
    sort_pkginfo_keys keys
      = PRIORITY_KEYS.filter (fun k => k ∈ keys)
        ++ List.insertionSort alphaLe
            (keys.filter (fun k => k ∉ PRIORITY_KEYS ∧ k ∉ LAST_KEYS))
        ++ (if "_metadata" ∈ keys then ["_metadata"] else []) := by
  rw [sort_pkginfo_keys_chunks, first_chunk_eq keys hnd, end_chunk_eq keys hnd]

/-! ## Claim theorems -/

/-- C2: at every mapping node, at any nesting depth, the ordering policy is
selected solely from that node's own marker-stripped key set — `packageid`
present selects the receipt policy, otherwise `path` and `type` together
select the install-item policy, every other mapping gets the package-info
policy — and selection is never inherited from the parent: the key sequence
the pass computes for a mapping is `claimKeyOrder` of its own clean keys,
and in the ordered tree every mapping (checked node-by-node by
`respectsClaimPolicy`, which consults nothing but the node's own keys)
satisfies its own selected policy. -/
theorem C2_policy_selection_per_node :
    (∀ pairs : List (String × Node),
        mapKeys (order_pkginfo_keys (.map pairs))
          = claimKeyOrder (keysOf (cleanPairs pairs)))
    ∧ (∀ D : Node, respectsClaimPolicy (order_pkginfo_keys D) = true) :=
  ⟨mapKeys_order_map, respects_order⟩

/-- C3: the ordering pass is idempotent — `order(order(D)) = order(D)` as
trees, which covers both the key order at every mapping node and value
equality. -/
theorem C3_order_idempotent :
    ∀ D : Node, order_pkginfo_keys (order_pkginfo_keys D) = order_pkginfo_keys D :=
  order_pkginfo_keys_idem

/-- C4 counterexample: the ordering pass does *not* preserve the key set of
every mapping — a mapping whose only key is the internal
`__ordered_keys__` marker loses that key. -/
theorem C4_counterexample :
    ORDER_MARKER ∈ mapKeys (Node.map [(ORDER_MARKER, Node.null)])
    ∧ ORDER_MARKER ∉ mapKeys (order_pkginfo_keys (Node.map [(ORDER_MARKER, Node.null)])) := by
  constructor
  · decide
  · decide

/-- C4 (amended): for every mapping with unique keys and no
`__ordered_keys__` marker key, the ordering pass preserves the key set
exactly — the output key sequence is a permutation of the input keys (same
set, nothing added or dropped) and is duplicate-free (every key appears
exactly once). -/
theorem C4_keyset_preserved (pairs : List (String × Node))
    (hnd : (keysOf pairs).Nodup) (hm : ORDER_MARKER ∉ keysOf pairs) :
    (mapKeys (order_pkginfo_keys (.map pairs))).Perm (keysOf pairs)
    ∧ (mapKeys (order_pkginfo_keys (.map pairs))).Nodup := by
  have h1 : mapKeys (order_pkginfo_keys (.map pairs)) = claimKeyOrder (keysOf pairs) := by
    rw [mapKeys_order_map, cleanPairs_eq_self hm]
  rw [h1]
  exact ⟨claimKeyOrder_perm (keysOf pairs),
    ((claimKeyOrder_perm (keysOf pairs)).nodup_iff).mpr hnd⟩

/-- C4 witness: the amended statement at a concrete two-key mapping. -/
theorem C4_keyset_preserved_witness :
    ((keysOf [("b", Node.null), ("a", Node.int 1)]).Nodup
      ∧ ORDER_MARKER ∉ keysOf [("b", Node.null), ("a", Node.int 1)])
    ∧ ((mapKeys (order_pkginfo_keys
          (.map [("b", Node.null), ("a", Node.int 1)]))).Perm
        (keysOf [("b", Node.null), ("a", Node.int 1)])
      ∧ (mapKeys (order_pkginfo_keys
          (.map [("b", Node.null), ("a", Node.int 1)]))).Nodup) :=
  ⟨⟨by decide, by decide⟩,
    C4_keyset_preserved [("b", Node.null), ("a", Node.int 1)] (by decide) (by decide)⟩

/-! ### Line discipline of the block emitter -/

/-- Prefixing preserves well-formed block endings. -/
theorem goodBlock_append (a : List Char) {b : List Char} (h : goodBlock b) :
    goodBlock (a ++ b) := by
  obtain ⟨u, c, rfl, hc⟩ := h
  exact ⟨a ++ u, c, by simp, hc⟩

/-- A block explicitly ending in `c '\n'` with `c ≠ '\n'` is well formed. -/
theorem goodBlock_concat {u : List Char} {c : Char} (hc : c ≠ '\n') :
    goodBlock (u ++ [c, '\n']) := ⟨u, c, rfl, hc⟩

/-- A decimal digit is one of `'0'..'9'`; in particular not a newline, not
a colon and not a space. -/
theorem digitCh_safe (d : Nat) :
    digitCh d ≠ '\n' ∧ digitCh d ≠ ':' ∧ digitCh d ≠ ' ' := by
  have h10 : d % 10 < 10 := Nat.mod_lt d (by omega)
  unfold digitCh
  interval_cases h : d % 10 <;> simp_all

/-- Every character of a rendered natural is a digit-safe character. -/
theorem natTextAux_safe (f : Nat) : ∀ (n : Nat), ∀ c ∈ natTextAux f n,
    c ≠ '\n' ∧ c ≠ ':' ∧ c ≠ ' ' := by
  induction f with
  | zero => intro n c hc; cases hc
  | succ f ih =>
    intro n c hc
    unfold natTextAux at hc
    by_cases h : n < 10
    · rw [if_pos h] at hc
      rcases List.mem_cons.mp hc with h1 | h2
      · exact h1 ▸ digitCh_safe n
      · cases h2
    · rw [if_neg h] at hc
      rcases List.mem_append.mp hc with h1 | h2
      · exact ih (n / 10) c h1
      · rcases List.mem_cons.mp h2 with h3 | h4
        · exact h3 ▸ digitCh_safe (n % 10)
        · cases h4

/-- Rendered integers contain no newline. -/
theorem intText_no_nl (i : Int) : ∀ c ∈ intText i, c ≠ '\n' := by
  cases i with
  | ofNat m => exact fun c hc => (natTextAux_safe (m + 1) m c hc).1
  | negSucc m =>
    intro c hc
    rcases List.mem_cons.mp hc with h1 | h2
    · subst h1; decide
    · exact (natTextAux_safe (m + 2) (m + 1) c h2).1

/-- Escaped characters contain no newline. -/
theorem escapeChar_no_nl (c : Char) : ∀ d ∈ escapeChar c, d ≠ '\n' := by
  intro d hd
  unfold escapeChar at hd
  split_ifs at hd with h1 h2 h3
  · rcases List.mem_cons.mp hd with h | h
    · subst h; decide
    · rcases List.mem_cons.mp h with h | h
      · subst h; decide
      · cases h
  · rcases List.mem_cons.mp hd with h | h
    · subst h; decide
    · rcases List.mem_cons.mp h with h | h
      · subst h; decide
      · cases h
  · rcases List.mem_cons.mp hd with h | h
    · subst h; decide
    · rcases List.mem_cons.mp h with h | h
      · subst h; decide
      · cases h
  · rcases List.mem_cons.mp hd with h | h
    · subst h; exact h3
    · cases h

/-- Escaped strings contain no newline. -/
theorem escapeChars_no_nl (cs : List Char) : ∀ d ∈ escapeChars cs, d ≠ '\n' := by
  induction cs with
  | nil => intro d hd; cases hd
  | cons c rest ih =>
    intro d hd
    rcases List.mem_append.mp hd with h | h
    · exact escapeChar_no_nl c d h
    · exact ih d h

/-- Rendered string scalars contain no newline. -/
theorem yamlStringText_no_nl (cs : List Char) : ∀ d ∈ yamlStringText cs, d ≠ '\n' := by
  intro d hd
  unfold yamlStringText at hd
  split_ifs at hd with h1 h2
  · rcases List.mem_cons.mp hd with h | h
    · subst h; decide
    · rcases List.mem_cons.mp h with h | h
      · subst h; decide
      · cases h
  · intro he
    subst he
    have := List.all_eq_true.mp h2 _ hd
    simp [yamlPlainOk] at this
  · rcases List.mem_cons.mp hd with h | h
    · subst h; decide
    · rcases List.mem_append.mp h with h | h
      · exact escapeChars_no_nl cs d h
      · rcases List.mem_cons.mp h with h | h
        · subst h; decide
        · cases h

/-- Rendered scalar text never contains a newline. -/
theorem yamlScalarText_no_nl (n : Node) : ∀ d ∈ yamlScalarText n, d ≠ '\n' := by
  cases n with
  | null => intro d hd; fin_cases hd <;> decide
  | bool b =>
    cases b <;> intro d hd <;> fin_cases hd <;> decide
  | int i => exact intText_no_nl i
  | str s => exact yamlStringText_no_nl s.data
  | seq items => intro d hd; cases hd
  | map pairs => intro d hd; cases hd

/-- The inline scalar part of a key or item line is a well-formed block. -/
theorem scalar_part_good (n : Node) :
    goodBlock (' ' :: yamlScalarText n ++ ['\n']) := by
  rcases List.eq_nil_or_concat (yamlScalarText n) with h | ⟨u, c, h⟩
  · rw [h]
    exact ⟨[], ' ', rfl, by decide⟩
  · have hc : c ≠ '\n' := yamlScalarText_no_nl n c (by rw [h]; simp)
    rw [h]
    refine ⟨' ' :: u, c, ?_, hc⟩
    simp

/-- Any single-character prefix preserves well-formed block endings. -/
theorem goodBlock_cons (c : Char) {b : List Char} (h : goodBlock b) :
    goodBlock (c :: b) := by
  have h2 := goodBlock_append [c] h
  simpa using h2

/-- Every block emitted by the dump functions ends in exactly one newline
(joint strong induction on the size of the emitted structure). -/
theorem dump_blocks_good : ∀ N : Nat,
    (∀ ps : List (String × Node), ∀ ind, sizeOf ps ≤ N → ps ≠ [] →
      goodBlock (yamlDumpPairs ind ps))
    ∧ (∀ xs : List Node, ∀ ind, sizeOf xs ≤ N → xs ≠ [] →
      goodBlock (yamlDumpItems ind xs))
    ∧ (∀ v : Node, ∀ indm inds, sizeOf v ≤ N →
      goodBlock (yamlValuePart indm inds v)) := by
  intro N
  induction N using Nat.strong_induction_on with
  | _ N IH =>
    refine ⟨?_, ?_, ?_⟩
    · intro ps ind hsz hne
      cases ps with
      | nil => exact absurd rfl hne
      | cons p rest =>
        obtain ⟨k, v⟩ := p
        have hv : sizeOf v < N := by
          have h1 : sizeOf ((k, v) :: rest)
              = 1 + (1 + sizeOf k + sizeOf v) + sizeOf rest := by simp
          omega
        have hpg : goodBlock (yamlValuePart (ind + 1) ind v) :=
          (IH (sizeOf v) hv).2.2 v (ind + 1) ind le_rfl
        show goodBlock (indentChars ind ++ k.data ++ ':' :: yamlValuePart (ind + 1) ind v
          ++ yamlDumpPairs ind rest)
        by_cases hrest : rest = []
        · subst hrest
          show goodBlock (_ ++ [])
          rw [List.append_nil]
          exact goodBlock_append _ (goodBlock_cons ':' hpg)
        · have hr : sizeOf rest < N := by
            have h1 : sizeOf ((k, v) :: rest)
                = 1 + (1 + sizeOf k + sizeOf v) + sizeOf rest := by simp
            omega
          exact goodBlock_append _ ((IH (sizeOf rest) hr).1 rest ind le_rfl hrest)
    · intro xs ind hsz hne
      cases xs with
      | nil => exact absurd rfl hne
      | cons x rest =>
        have hv : sizeOf x < N := by
          have h1 : sizeOf (x :: rest) = 1 + sizeOf x + sizeOf rest := by simp
          omega
        have hpg : goodBlock (yamlValuePart (ind + 1) (ind + 1) x) :=
          (IH (sizeOf x) hv).2.2 x (ind + 1) (ind + 1) le_rfl
        show goodBlock (indentChars ind ++ '-' :: yamlValuePart (ind + 1) (ind + 1) x
          ++ yamlDumpItems ind rest)
        by_cases hrest : rest = []
        · subst hrest
          show goodBlock (_ ++ [])
          rw [List.append_nil]
          exact goodBlock_append _ (goodBlock_cons '-' hpg)
        · have hr : sizeOf rest < N := by
            have h1 : sizeOf (x :: rest) = 1 + sizeOf x + sizeOf rest := by simp
            omega
          exact goodBlock_append _ ((IH (sizeOf rest) hr).2.1 rest ind le_rfl hrest)
    · intro v indm inds hsz
      cases v with
      | map pairs =>
        cases pairs with
        | nil => exact ⟨[' ', '\x7b'], '\x7d', rfl, by decide⟩
        | cons p ps =>
          have hlt : sizeOf (p :: ps) < N := by
            have h1 : sizeOf (Node.map (p :: ps)) = 1 + sizeOf (p :: ps) := by simp
            omega
          exact goodBlock_cons '\n'
            ((IH (sizeOf (p :: ps)) hlt).1 (p :: ps) indm le_rfl (by simp))
      | seq items =>
        cases items with
        | nil => exact ⟨[' ', '['], ']', rfl, by decide⟩
        | cons x xs =>
          have hlt : sizeOf (x :: xs) < N := by
            have h1 : sizeOf (Node.seq (x :: xs)) = 1 + sizeOf (x :: xs) := by simp
            omega
          exact goodBlock_cons '\n'
            ((IH (sizeOf (x :: xs)) hlt).2.1 (x :: xs) inds le_rfl (by simp))
      | null => exact scalar_part_good Node.null
      | bool b => exact scalar_part_good (Node.bool b)
      | int i => exact scalar_part_good (Node.int i)
      | str s => exact scalar_part_good (Node.str s)

/-- Every serialized document ends in exactly one newline. -/
theorem yamlDump_good (n : Node) : goodBlock (yamlDump n) := by
  cases n with
  | map pairs =>
    cases pairs with
    | nil => exact ⟨['\x7b'], '\x7d', rfl, by decide⟩
    | cons p ps =>
      exact (dump_blocks_good (sizeOf (p :: ps))).1 (p :: ps) 0 le_rfl (by simp)
  | seq items =>
    cases items with
    | nil => exact ⟨['['], ']', rfl, by decide⟩
    | cons x xs =>
      exact (dump_blocks_good (sizeOf (x :: xs))).2.1 (x :: xs) 0 le_rfl (by simp)
  | null =>
    exact ⟨yamlScalarText Node.null ++ ['\n', '.', '.'], '.', by simp [yamlDump], by decide⟩
  | bool b =>
    exact ⟨yamlScalarText (Node.bool b) ++ ['\n', '.', '.'], '.', by simp [yamlDump], by decide⟩
  | int i =>
    exact ⟨yamlScalarText (Node.int i) ++ ['\n', '.', '.'], '.', by simp [yamlDump], by decide⟩
  | str s =>
    exact ⟨yamlScalarText (Node.str s) ++ ['\n', '.', '.'], '.', by simp [yamlDump], by decide⟩

/-- `rstrip('\n')` on a block ending in exactly one newline removes exactly
that newline, and the result does not end in a newline. -/
theorem rstripNl_goodBlock {t : List Char} (h : goodBlock t) :
    rstripNl t ++ ['\n'] = t ∧ (rstripNl t).getLast? ≠ some '\n' := by
  obtain ⟨u, c, rfl, hc⟩ := h
  have hcb : (c = '\n') = False := by simp [hc]
  have hr : rstripNl (u ++ [c, '\n']) = u ++ [c] := by
    unfold rstripNl
    rw [List.reverse_append]
    show (List.dropWhile (fun x => decide (x = '\n')) ('\n' :: c :: u.reverse)).reverse = _
    rw [List.dropWhile_cons_of_pos (by simp), List.dropWhile_cons_of_neg (by simp [hc])]
    simp
  constructor
  · rw [hr]
    simp
  · rw [hr]
    have : (u ++ [c]).getLast? = some c := List.getLast?_concat u
    rw [this]
    simp [hc]

/-- C8: when emitting to the markup format the final output has no trailing
blank line: exactly one trailing line terminator is trimmed from the
serialized text (which always ends in exactly one), and never more than
one — the trimmed output plus a single newline reconstitutes the serialized
text, and the output itself no longer ends in a newline. -/
theorem C8_trailing_newline_trim (data : Node) :
    dict_to_yaml_string data ++ ['\n'] = yamlDump (order_pkginfo_keys data)
    ∧ (dict_to_yaml_string data).getLast? ≠ some '\n' :=
  rstripNl_goodBlock (yamlDump_good (order_pkginfo_keys data))

/-! ### Reading the emitted key order back from the text (flat mappings) -/

/-- `splitLines` of nonempty text is nonempty. -/
theorem splitLines_ne_nil {l : List Char} (h : l ≠ []) : splitLines l ≠ [] := by
  cases l with
  | nil => exact absurd rfl h
  | cons c cs =>
    by_cases hc : c = '\n'
    · simp [splitLines, hc]
    · simp only [splitLines, if_neg hc]
      cases splitLines cs <;> simp

/-- Splitting off a complete first line. -/
theorem splitLines_single_line :
    ∀ {a : List Char}, '\n' ∉ a → ∀ b : List Char,
      splitLines (a ++ '\n' :: b) = a :: splitLines b := by
  intro a
  induction a with
  | nil => intro _ b; rfl
  | cons c a' ih =>
    intro ha b
    have hc : ¬c = '\n' := fun he => ha (he ▸ List.mem_cons_self c a')
    have ha' : '\n' ∉ a' := fun hm => ha (List.mem_cons_of_mem c hm)
    have key : splitLines ((c :: a') ++ '\n' :: b)
        = match splitLines (a' ++ '\n' :: b) with
          | [] => [[c]]
          | l :: ls => (c :: l) :: ls := by
      rw [List.cons_append]
      show (if c = '\n' then [] :: splitLines (a' ++ '\n' :: b)
        else match splitLines (a' ++ '\n' :: b) with
          | [] => [[c]]
          | l :: ls => (c :: l) :: ls) = _
      rw [if_neg hc]
    rw [key, ih ha' b]

/-- Dropping a final newline after a non-newline character does not change
the line decomposition. -/
theorem splitLines_concat_nl :
    ∀ (Y : List Char) (c : Char), c ≠ '\n' →
      splitLines (Y ++ [c, '\n']) = splitLines (Y ++ [c]) := by
  intro Y
  induction Y with
  | nil =>
    intro c hc
    simp [splitLines, hc]
  | cons d Y' ih =>
    intro c hc
    by_cases hd : d = '\n'
    · subst hd
      have k1 : splitLines (('\n' :: Y') ++ [c, '\n'])
          = [] :: splitLines (Y' ++ [c, '\n']) := by
        rw [List.cons_append]
        rfl
      have k2 : splitLines (('\n' :: Y') ++ [c])
          = [] :: splitLines (Y' ++ [c]) := by
        rw [List.cons_append]
        rfl
      rw [k1, k2, ih c hc]
    · have k1 : splitLines ((d :: Y') ++ [c, '\n'])
          = match splitLines (Y' ++ [c, '\n']) with
            | [] => [[d]]
            | l :: ls => (d :: l) :: ls := by
        rw [List.cons_append]
        show (if d = '\n' then [] :: splitLines (Y' ++ [c, '\n'])
          else match splitLines (Y' ++ [c, '\n']) with
            | [] => [[d]]
            | l :: ls => (d :: l) :: ls) = _
        rw [if_neg hd]
      have k2 : splitLines ((d :: Y') ++ [c])
          = match splitLines (Y' ++ [c]) with
            | [] => [[d]]
            | l :: ls => (d :: l) :: ls := by
        rw [List.cons_append]
        show (if d = '\n' then [] :: splitLines (Y' ++ [c])
          else match splitLines (Y' ++ [c]) with
            | [] => [[d]]
            | l :: ls => (d :: l) :: ls) = _
        rw [if_neg hd]
      rw [k1, k2, ih c hc]

/-- The ordering pass fixes scalars. -/
theorem order_scalar {n : Node} (h : isScalar n = true) :
    order_pkginfo_keys n = n := by
  cases n with
  | null => rfl
  | bool b => rfl
  | int i => rfl
  | str s => rfl
  | seq items => simp [isScalar] at h
  | map pairs => simp [isScalar] at h

/-- The serialized form of a flat (all-scalar) mapping is exactly one
`key: value` line per entry, in list order. -/
theorem flat_dump_lines :
    ∀ ps : List (String × Node),
      (∀ p ∈ ps, isScalar p.2 = true) → (∀ p ∈ ps, '\n' ∉ (p.1 : String).data) →
      splitLines (yamlDumpPairs 0 ps)
        = ps.map (fun p => p.1.data ++ ':' :: ' ' :: yamlScalarText p.2) := by
  intro ps
  induction ps with
  | nil => intro _ _; rfl
  | cons p rest ih =>
    intro hflat hkey
    obtain ⟨k, v⟩ := p
    have hv : isScalar v = true := hflat (k, v) (List.mem_cons_self _ _)
    have hpart : yamlValuePart 1 0 v = ' ' :: yamlScalarText v ++ ['\n'] := by
      cases v with
      | null => rfl
      | bool b => rfl
      | int i => rfl
      | str s => rfl
      | seq items => simp [isScalar] at hv
      | map pairs => simp [isScalar] at hv
    have hline : '\n' ∉ k.data ++ ':' :: ' ' :: yamlScalarText v := by
      intro hm
      rcases List.mem_append.mp hm with h1 | h2
      · exact hkey (k, v) (List.mem_cons_self _ _) h1
      · rcases List.mem_cons.mp h2 with h3 | h4
        · exact absurd h3.symm (by decide)
        · rcases List.mem_cons.mp h4 with h5 | h6
          · exact absurd h5.symm (by decide)
          · exact yamlScalarText_no_nl v '\n' h6 rfl
    show splitLines (indentChars 0 ++ k.data ++ ':' :: yamlValuePart 1 0 v
        ++ yamlDumpPairs 0 rest) = _
    rw [hpart]
    have hshape : indentChars 0 ++ k.data ++ ':' :: (' ' :: yamlScalarText v ++ ['\n'])
        ++ yamlDumpPairs 0 rest
        = (k.data ++ ':' :: ' ' :: yamlScalarText v) ++ '\n' :: yamlDumpPairs 0 rest := by
      simp [indentChars, List.append_assoc]
    rw [hshape, splitLines_single_line hline]
    rw [ih (fun q hq => hflat q (List.mem_cons_of_mem _ hq))
      (fun q hq => hkey q (List.mem_cons_of_mem _ hq))]
    rfl

/-- Keys whose text is colon-free are recovered whole by `takeWhile`. -/
theorem takeWhile_no_colon :
    ∀ (a : List Char), ':' ∉ a → ∀ b : List Char,
      (a ++ ':' :: b).takeWhile (fun c => c ≠ ':') = a := by
  intro a
  induction a with
  | nil => intro _ b; simp [List.takeWhile]
  | cons c a' ih =>
    intro hc b
    have h1 : ¬c = ':' := fun he => hc (he ▸ List.mem_cons_self c a')
    have h2 : ':' ∉ a' := fun hm => hc (List.mem_cons_of_mem c hm)
    rw [List.cons_append, List.takeWhile_cons_of_pos (by simp [h1])]
    exact congrArg (fun t => c :: t) (ih h2 b)

/-- The extractor recovers the key from one flat `key: value` line. -/
theorem extract_flat_line (k : String) (v : Node) (hsafe : yamlKeySafe k = true) :
    yamlLineKey (k.data ++ ':' :: ' ' :: yamlScalarText v) = some k := by
  simp only [yamlKeySafe, Bool.and_eq_true, decide_eq_true_eq] at hsafe
  obtain ⟨⟨hknl, hkcolon⟩, hkhead⟩ := hsafe
  have htake : (k.data ++ ':' :: ' ' :: yamlScalarText v).takeWhile
      (fun c' => c' ≠ ':') = k.data := takeWhile_no_colon k.data hkcolon _
  cases hkd : k.data with
  | nil =>
    rw [hkd] at htake
    simp only [List.nil_append] at htake ⊢
    show (if (':' : Char) = ' ' ∨ (':' : Char) = '-' then none
        else some (String.mk ((':' :: ' ' :: yamlScalarText v).takeWhile
          (fun c' => c' ≠ ':')))) = some k
    rw [if_neg (by decide : ¬((':' : Char) = ' ' ∨ (':' : Char) = '-'))]
    rw [htake]
    exact congrArg some (by rw [← hkd])
  | cons c ks =>
    rw [hkd] at hkhead htake
    simp only [List.cons_append] at htake ⊢
    have hc : ¬(c = ' ' ∨ c = '-') := by
      intro hor
      rcases hor with h | h <;> simp [h] at hkhead
    show (if c = ' ' ∨ c = '-' then none
        else some (String.mk ((c :: (ks ++ ':' :: ' ' :: yamlScalarText v)).takeWhile
          (fun c' => c' ≠ ':')))) = some k
    rw [if_neg hc, htake]
    exact congrArg some (by rw [← hkd])

/-- Reading the keys back from the flat emitted lines recovers the key
sequence. -/
theorem topKeys_of_flat_lines :
    ∀ ps : List (String × Node), (∀ p ∈ ps, yamlKeySafe p.1 = true) →
      (ps.map (fun p => p.1.data ++ ':' :: ' ' :: yamlScalarText p.2)).filterMap
          yamlLineKey
        = keysOf ps := by
  intro ps
  induction ps with
  | nil => intro _; rfl
  | cons p rest ih =>
    intro hsafe
    have hf := extract_flat_line p.1 p.2 (hsafe p (List.mem_cons_self _ _))
    rw [List.map_cons, List.filterMap_cons_some hf]
    rw [ih (fun q hq => hsafe q (List.mem_cons_of_mem _ hq))]
    rfl

/-- Values drawn by the rebuild from a flat mapping stay scalar. -/
theorem rebuild_values_scalar (pairs : List (String × Node))
    (hflat : ∀ p ∈ pairs, isScalar p.2 = true) (k : String) :
    isScalar (order_pkginfo_keys (lookupD (cleanPairs pairs) k)) = true := by
  cases hl : List.lookup k (cleanPairs pairs) with
  | none =>
    unfold lookupD
    rw [hl]
    rfl
  | some v =>
    have hv : (k, v) ∈ cleanPairs pairs := lookup_mem hl
    have hvs : isScalar v = true := hflat (k, v) (List.mem_of_mem_filter hv)
    unfold lookupD
    rw [hl]
    show isScalar (order_pkginfo_keys v) = true
    rw [order_scalar hvs]
    exact hvs

/-- For a flat mapping with unambiguous keys, the keys read back from the
emitted markup text are exactly the computed key order. -/
theorem flat_yaml_topkeys (pairs : List (String × Node))
    (hne : cleanPairs pairs ≠ [])
    (hflat : ∀ p ∈ pairs, isScalar p.2 = true)
    (hsafe : ∀ p ∈ pairs, yamlKeySafe p.1 = true) :
    yamlTopKeysOfText (dict_to_yaml_string (.map pairs))
      = claimKeyOrder (keysOf (cleanPairs pairs)) := by
  have hord := order_map_eq pairs
  have hkeymem : ∀ k ∈ claimKeyOrder (keysOf (cleanPairs pairs)), k ∈ keysOf pairs := by
    intro k hk
    have h1 : k ∈ keysOf (cleanPairs pairs) := (claimKeyOrder_mem _ _).mp hk
    rw [keysOf_cleanPairs] at h1
    exact List.mem_of_mem_filter h1
  have hqflat : ∀ p ∈ (claimKeyOrder (keysOf (cleanPairs pairs))).map
      (fun k => (k, order_pkginfo_keys (lookupD (cleanPairs pairs) k))),
      isScalar p.2 = true := by
    intro p hp
    obtain ⟨k, _, rfl⟩ := List.mem_map.mp hp
    exact rebuild_values_scalar pairs hflat k
  have hqsafe : ∀ p ∈ (claimKeyOrder (keysOf (cleanPairs pairs))).map
      (fun k => (k, order_pkginfo_keys (lookupD (cleanPairs pairs) k))),
      yamlKeySafe p.1 = true := by
    intro p hp
    obtain ⟨k, hk, rfl⟩ := List.mem_map.mp hp
    obtain ⟨p', hp', he⟩ := List.mem_map.mp (hkeymem k hk)
    show yamlKeySafe k = true
    rw [← he]
    exact hsafe p' hp'
  have hqnl : ∀ p ∈ (claimKeyOrder (keysOf (cleanPairs pairs))).map
      (fun k => (k, order_pkginfo_keys (lookupD (cleanPairs pairs) k))),
      '\n' ∉ (p.1 : String).data := by
    intro p hp
    have h1 := hqsafe p hp
    simp only [yamlKeySafe, Bool.and_eq_true, decide_eq_true_eq] at h1
    exact h1.1.1
  have hKne : claimKeyOrder (keysOf (cleanPairs pairs)) ≠ [] := by
    intro h0
    have hperm := claimKeyOrder_perm (keysOf (cleanPairs pairs))
    rw [h0] at hperm
    have h1 : keysOf (cleanPairs pairs) = [] := (List.Perm.eq_nil hperm.symm)
    exact hne (List.map_eq_nil_iff.mp h1)
  have hqne : (claimKeyOrder (keysOf (cleanPairs pairs))).map
      (fun k => (k, order_pkginfo_keys (lookupD (cleanPairs pairs) k))) ≠ [] := by
    intro h0
    exact hKne (List.map_eq_nil_iff.mp h0)
  obtain ⟨q0, q', hq⟩ : ∃ q0 q', (claimKeyOrder (keysOf (cleanPairs pairs))).map
      (fun k => (k, order_pkginfo_keys (lookupD (cleanPairs pairs) k))) = q0 :: q' := by
    cases hqe : (claimKeyOrder (keysOf (cleanPairs pairs))).map
        (fun k => (k, order_pkginfo_keys (lookupD (cleanPairs pairs) k))) with
    | nil => exact absurd hqe hqne
    | cons a b => exact ⟨a, b, rfl⟩
  have hdump : yamlDump (.map ((claimKeyOrder (keysOf (cleanPairs pairs))).map
      (fun k => (k, order_pkginfo_keys (lookupD (cleanPairs pairs) k)))))
      = yamlDumpPairs 0 ((claimKeyOrder (keysOf (cleanPairs pairs))).map
        (fun k => (k, order_pkginfo_keys (lookupD (cleanPairs pairs) k)))) := by
    rw [hq]
    rfl
  have hgood : goodBlock (yamlDumpPairs 0 ((claimKeyOrder (keysOf (cleanPairs pairs))).map
      (fun k => (k, order_pkginfo_keys (lookupD (cleanPairs pairs) k))))) := by
    rw [hq]
    exact (dump_blocks_good (sizeOf (q0 :: q'))).1 (q0 :: q') 0 le_rfl (by simp)
  obtain ⟨u, c, hu, hc⟩ := hgood
  have hrs : rstripNl (yamlDumpPairs 0 ((claimKeyOrder (keysOf (cleanPairs pairs))).map
      (fun k => (k, order_pkginfo_keys (lookupD (cleanPairs pairs) k))))) = u ++ [c] := by
    rw [hu]
    have h1 := (rstripNl_goodBlock (⟨u, c, rfl, hc⟩ : goodBlock (u ++ [c, '\n']))).1
    have h2 : (u ++ [c]) ++ ['\n'] = u ++ [c, '\n'] := by simp
    nth_rewrite 2 [← h2] at h1
    exact List.append_cancel_right h1
  have hdy : dict_to_yaml_string (.map pairs)
      = rstripNl (yamlDumpPairs 0 ((claimKeyOrder (keysOf (cleanPairs pairs))).map
        (fun k => (k, order_pkginfo_keys (lookupD (cleanPairs pairs) k))))) := by
    show rstripNl (yamlDump (order_pkginfo_keys (.map pairs))) = _
    rw [hord, hdump]
  have hsplit : splitLines (u ++ [c])
      = splitLines (yamlDumpPairs 0 ((claimKeyOrder (keysOf (cleanPairs pairs))).map
        (fun k => (k, order_pkginfo_keys (lookupD (cleanPairs pairs) k))))) := by
    rw [hu]
    exact (splitLines_concat_nl u c hc).symm
  rw [hdy]
  unfold yamlTopKeysOfText
  rw [hrs, hsplit]
  rw [flat_dump_lines _ hqflat hqnl]
  rw [topKeys_of_flat_lines _ hqsafe]
  exact keysOf_tabulate _ _

/-- C1: for every mapping to which the package-info (default) policy
applies — no `packageid`, not both `path` and `type` in its clean key set;
keys unique as in a Python dict — the computed key order is: the present
priority keys `name, display_name, version` first in that fixed order, then
all remaining keys except `_metadata` in alphabetical order, then
`_metadata` last if present; the ordering pass hands the serializer a
mapping in exactly this key order; and (for flat scalar mappings with
line-unambiguous keys) the keys read back from the emitted markup text are
exactly this computed order — the serializer emits without re-sorting. -/
theorem C1_pkginfo_policy_order (pairs : List (String × Node))
    (hnd : (keysOf (cleanPairs pairs)).Nodup)
    (hrec : "packageid" ∉ keysOf (cleanPairs pairs))
    (hins : ¬("path" ∈ keysOf (cleanPairs pairs) ∧ "type" ∈ keysOf (cleanPairs pairs))) :
    mapKeys (order_pkginfo_keys (.map pairs))
        = sort_pkginfo_keys (keysOf (cleanPairs pairs))
    ∧ sort_pkginfo_keys (keysOf (cleanPairs pairs))
        = PRIORITY_KEYS.filter (fun k => k ∈ keysOf (cleanPairs pairs))
          ++ List.insertionSort alphaLe ((keysOf (cleanPairs pairs)).filter
              (fun k => k ∉ PRIORITY_KEYS ∧ k ∉ LAST_KEYS))
          ++ (if "_metadata" ∈ keysOf (cleanPairs pairs) then ["_metadata"] else [])
    ∧ List.Sorted alphaLe (List.insertionSort alphaLe ((keysOf (cleanPairs pairs)).filter
        (fun k => k ∉ PRIORITY_KEYS ∧ k ∉ LAST_KEYS)))
    ∧ (cleanPairs pairs ≠ [] → (∀ p ∈ pairs, isScalar p.2 = true) →
        (∀ p ∈ pairs, yamlKeySafe p.1 = true) →
        yamlTopKeysOfText (dict_to_yaml_string (.map pairs))
          = sort_pkginfo_keys (keysOf (cleanPairs pairs))) := by
  have hclaim : claimKeyOrder (keysOf (cleanPairs pairs))
      = sort_pkginfo_keys (keysOf (cleanPairs pairs)) := by
    unfold claimKeyOrder
    rw [if_neg hrec, if_neg hins]
  refine ⟨?_, ?_, ?_, ?_⟩
  · rw [mapKeys_order_map, hclaim]
  · exact sort_pkginfo_keys_shape _ hnd
  · exact List.sorted_insertionSort _ _
  · intro hne hflat hsafe
    rw [flat_yaml_topkeys pairs hne hflat hsafe, hclaim]

/-- C1 witness: the claim at a concrete five-key package-info mapping. -/
theorem C1_pkginfo_policy_order_witness :
    ((keysOf (cleanPairs [("version", Node.str "1.0"), ("zebra", Node.str "z"),
        ("name", Node.str "foo"), ("_metadata", Node.str "m"),
        ("alpha", Node.str "a")])).Nodup
      ∧ "packageid" ∉ keysOf (cleanPairs [("version", Node.str "1.0"),
          ("zebra", Node.str "z"), ("name", Node.str "foo"),
          ("_metadata", Node.str "m"), ("alpha", Node.str "a")])
      ∧ ¬("path" ∈ keysOf (cleanPairs [("version", Node.str "1.0"),
            ("zebra", Node.str "z"), ("name", Node.str "foo"),
            ("_metadata", Node.str "m"), ("alpha", Node.str "a")])
          ∧ "type" ∈ keysOf (cleanPairs [("version", Node.str "1.0"),
            ("zebra", Node.str "z"), ("name", Node.str "foo"),
            ("_metadata", Node.str "m"), ("alpha", Node.str "a")])))
    ∧ mapKeys (order_pkginfo_keys (.map [("version", Node.str "1.0"),
        ("zebra", Node.str "z"), ("name", Node.str "foo"),
        ("_metadata", Node.str "m"), ("alpha", Node.str "a")]))
      = sort_pkginfo_keys (keysOf (cleanPairs [("version", Node.str "1.0"),
        ("zebra", Node.str "z"), ("name", Node.str "foo"),
        ("_metadata", Node.str "m"), ("alpha", Node.str "a")]))
    ∧ yamlTopKeysOfText (dict_to_yaml_string (.map [("version", Node.str "1.0"),
        ("zebra", Node.str "z"), ("name", Node.str "foo"),
        ("_metadata", Node.str "m"), ("alpha", Node.str "a")]))
      = sort_pkginfo_keys (keysOf (cleanPairs [("version", Node.str "1.0"),
        ("zebra", Node.str "z"), ("name", Node.str "foo"),
        ("_metadata", Node.str "m"), ("alpha", Node.str "a")])) :=
  ⟨⟨by decide, by decide, by decide⟩,
   (C1_pkginfo_policy_order [("version", Node.str "1.0"), ("zebra", Node.str "z"),
      ("name", Node.str "foo"), ("_metadata", Node.str "m"), ("alpha", Node.str "a")]
      (by decide) (by decide) (by decide)).1,
   (C1_pkginfo_policy_order [("version", Node.str "1.0"), ("zebra", Node.str "z"),
      ("name", Node.str "foo"), ("_metadata", Node.str "m"), ("alpha", Node.str "a")]
      (by decide) (by decide) (by decide)).2.2.2
     (by intro h; exact List.noConfusion h) (by decide) (by decide)⟩

/-! ### The long-line truncation boundary -/

/-- `getD` on a replicated list inside the bound. -/
theorem replicate_getD {α : Type} {n i : Nat} (a d : α) (h : i < n) :
    (List.replicate n a).getD i d = a := by
  rw [List.getD_eq_getElem?_getD, List.getElem?_replicate, if_pos h]
  rfl

/-- The word-boundary search stops exactly at a whitespace position `p` when
positions `p+1 .. 9000` carry no whitespace. -/
theorem truncLoop_finds (line : List Char) (p : Nat) (hp1 : 8000 < p) (hp2 : p ≤ 9000)
    (hws : isSpaceTab (line.getD p 'x') = true)
    (habove : ∀ i, p < i → i ≤ 9000 → isSpaceTab (line.getD i 'x') = false) :
    truncLoop line 9000 = p := by
  have main : ∀ d : Nat, p + d ≤ 9000 → truncLoop line (p + d) = p := by
    intro d
    induction d with
    | zero =>
      intro _
      have hng : ¬(8000 < p ∧ isSpaceTab (line.getD p 'x') = false) := by
        intro hc
        rw [hws] at hc
        simp at hc
      rw [Nat.add_zero, truncLoop, if_neg hng]
    | succ d ih =>
      intro hle
      have hc : 8000 < p + (d + 1)
          ∧ isSpaceTab (line.getD (p + (d + 1)) 'x') = false :=
        ⟨by omega, habove (p + (d + 1)) (by omega) (by omega)⟩
      rw [truncLoop, if_pos hc, show p + (d + 1) - 1 = p + d from by omega]
      exact ih (by omega)
  have h9 : p + (9000 - p) = 9000 := by omega
  have hm := main (9000 - p) (by omega)
  rw [h9] at hm
  exact hm

/-- With no whitespace anywhere in `8001 .. 9000` the search runs down to
position 8000. -/
theorem truncLoop_exhausts (line : List Char)
    (hws : ∀ i, 8001 ≤ i → i ≤ 9000 → isSpaceTab (line.getD i 'x') = false) :
    truncLoop line 9000 = 8000 := by
  have main : ∀ d : Nat, d ≤ 1000 → truncLoop line (8000 + d) = 8000 := by
    intro d
    induction d with
    | zero =>
      intro _
      have hng : ¬(8000 < 8000 + 0
          ∧ isSpaceTab (line.getD (8000 + 0) 'x') = false) := by
        intro hc
        omega
      rw [truncLoop, if_neg hng]
    | succ d ih =>
      intro hle
      have hc : 8000 < 8000 + (d + 1)
          ∧ isSpaceTab (line.getD (8000 + (d + 1)) 'x') = false :=
        ⟨by omega, hws (8000 + (d + 1)) (by omega) (by omega)⟩
      rw [truncLoop, if_pos hc, show 8000 + (d + 1) - 1 = 8000 + d from by omega]
      exact ih (by omega)
  have hm := main 1000 le_rfl
  exact hm

/-- C6: in the line-repair pass, a line of exactly 10,001 characters whose
only whitespace at positions 8,001–9,000 is a space at position 8,500 is
truncated at 8,500 with the `...` marker appended and a diagnostic naming
the line number and cut position; a 10,001-character line with no
whitespace in that window is hard-truncated at 9,000 with the same marker
and a diagnostic naming the line number. -/
theorem C6_truncation_boundary :
    (∀ (lineNum : Nat) (line : List Char),
      line.length = 10001 →
      line.getD 8500 'x' = ' ' →
      (∀ i, 8001 ≤ i → i ≤ 9000 → i ≠ 8500 → isSpaceTab (line.getD i 'x') = false) →
      truncate_long_line lineNum line
        = (line.take 8500 ++ "...".data,
           [s!"Warning: Truncated long line {lineNum} at {8500} characters"]))
    ∧ (∀ (lineNum : Nat) (line : List Char),
      line.length = 10001 →
      (∀ i, 8001 ≤ i → i ≤ 9000 → isSpaceTab (line.getD i 'x') = false) →
      truncate_long_line lineNum line
        = (line.take 9000 ++ "...".data,
           [s!"Warning: Hard truncated line {lineNum}"])) := by
  constructor
  · intro lineNum line hlen hsp hwin
    have hloop : truncLoop line 9000 = 8500 := by
      apply truncLoop_finds line 8500 (by omega) (by omega)
      · rw [hsp]
        rfl
      · intro i hi1 hi2
        exact hwin i (by omega) hi2 (by omega)
    unfold truncate_long_line
    rw [if_pos (by omega)]
    rw [hloop]
    rw [if_pos (by omega)]
  · intro lineNum line hlen hwin
    have hloop : truncLoop line 9000 = 8000 := truncLoop_exhausts line hwin
    unfold truncate_long_line
    rw [if_pos (by omega)]
    rw [hloop]
    rw [if_neg (by omega)]

/-- C6 witness: both truncation behaviours at concrete 10,001-character
lines. -/
theorem C6_truncation_boundary_witness :
    ((List.replicate 8500 'a' ++ ' ' :: List.replicate 1500 'a').length = 10001
      ∧ (List.replicate 8500 'a' ++ ' ' :: List.replicate 1500 'a').getD 8500 'x' = ' '
      ∧ (List.replicate 10001 'a').length = 10001)
    ∧ truncate_long_line 7 (List.replicate 8500 'a' ++ ' ' :: List.replicate 1500 'a')
        = ((List.replicate 8500 'a' ++ ' ' :: List.replicate 1500 'a').take 8500
            ++ "...".data,
           [s!"Warning: Truncated long line {7} at {8500} characters"])
    ∧ truncate_long_line 3 (List.replicate 10001 'a')
        = ((List.replicate 10001 'a').take 9000 ++ "...".data,
           [s!"Warning: Hard truncated line {3}"]) := by
  have hlenA : (List.replicate 8500 'a' ++ ' ' :: List.replicate 1500 'a').length = 10001 := by
    rw [List.length_append, List.length_replicate, List.length_cons, List.length_replicate]
  have hspA : (List.replicate 8500 'a' ++ ' ' :: List.replicate 1500 'a').getD 8500 'x' = ' ' := by
    rw [List.getD_append_right _ _ _ _ (by rw [List.length_replicate])]
    rw [show 8500 - (List.replicate 8500 'a').length = 0 from by
      rw [List.length_replicate]]
    rfl
  have hwinA : ∀ i, 8001 ≤ i → i ≤ 9000 → i ≠ 8500 →
      isSpaceTab ((List.replicate 8500 'a' ++ ' ' :: List.replicate 1500 'a').getD i 'x')
        = false := by
    intro i h1 h2 h3
    by_cases hlt : i < 8500
    · rw [List.getD_append _ _ _ _ (by rw [List.length_replicate]; exact hlt)]
      rw [replicate_getD _ _ hlt]
      rfl
    · rw [List.getD_append_right _ _ _ _ (by rw [List.length_replicate]; omega)]
      rw [show i - (List.replicate 8500 'a').length = (i - 8501) + 1 from by
        rw [List.length_replicate]; omega]
      rw [List.getD_cons_succ]
      rw [replicate_getD _ _ (show i - 8501 < 1500 by omega)]
      rfl
  have hlenB : (List.replicate 10001 'a').length = 10001 := by
    rw [List.length_replicate]
  have hwinB : ∀ i, 8001 ≤ i → i ≤ 9000 →
      isSpaceTab ((List.replicate 10001 'a').getD i 'x') = false := by
    intro i h1 h2
    rw [replicate_getD _ _ (show i < 10001 by omega)]
    rfl
  exact ⟨⟨hlenA, hspA, hlenB⟩,
    C6_truncation_boundary.1 7 _ hlenA hspA hwinA,
    C6_truncation_boundary.2 3 _ hlenB hwinB⟩

/-! ### The document-boundary recovery scan -/

/-- Full characterization of the `for i, doc in enumerate(yaml_docs)` scan:
either some segment parses to a non-null document, the first such segment
wins and the diagnostic names its 1-indexed position, or no segment does
and the scan raises. -/
theorem scanDocs_spec (parse : ParseFun) :
    ∀ (docs : List (List Char)) (i total : Nat),
      (∃ j v, j < docs.length
        ∧ parse (docs.getD j []) = .ok (some v)
        ∧ (∀ j' < j, ∀ w, parse (docs.getD j' []) ≠ .ok (some w))
        ∧ scanDocs parse docs i total
            = (.ok (some v),
               [s!"Successfully parsed YAML document {i + j + 1} of {total}"]))
      ∨ ((∀ j < docs.length, ∀ w, parse (docs.getD j []) ≠ .ok (some w))
        ∧ scanDocs parse docs i total = (.error (), [])) := by
  intro docs
  induction docs with
  | nil =>
    intro i total
    right
    exact ⟨fun j hj => absurd hj (by simp), rfl⟩
  | cons d rest ih =>
    intro i total
    have hstep : ∀ hp : parse d = .ok none ∨ (∃ e, parse d = .error e),
        scanDocs parse (d :: rest) i total = scanDocs parse rest (i + 1) total := by
      intro hp
      show (match parse d with
        | .ok (some v) =>
          ((.ok (some v) : Except Unit (Option Node)),
            [s!"Successfully parsed YAML document {i+1} of {total}"])
        | _ => scanDocs parse rest (i + 1) total) = _
      rcases hp with hp | ⟨e, hp⟩ <;> rw [hp]
    have hheadne : ∀ hp : parse d = .ok none ∨ (∃ e, parse d = .error e),
        ∀ w, parse d ≠ .ok (some w) := by
      intro hp w hc
      rcases hp with hp | ⟨e, hp⟩ <;> rw [hp] at hc <;> cases hc
    have htail : ∀ hp : parse d = .ok none ∨ (∃ e, parse d = .error e),
        (∃ j v, j < (d :: rest).length
          ∧ parse ((d :: rest).getD j []) = .ok (some v)
          ∧ (∀ j' < j, ∀ w, parse ((d :: rest).getD j' []) ≠ .ok (some w))
          ∧ scanDocs parse (d :: rest) i total
              = (.ok (some v),
                 [s!"Successfully parsed YAML document {i + j + 1} of {total}"]))
        ∨ ((∀ j < (d :: rest).length, ∀ w,
              parse ((d :: rest).getD j []) ≠ .ok (some w))
          ∧ scanDocs parse (d :: rest) i total = (.error (), [])) := by
      intro hp
      rcases ih (i + 1) total with ⟨j, v, hjlt, hpj, hguard, hres⟩ | ⟨hall, hres⟩
      · left
        refine ⟨j + 1, v, by simpa using Nat.succ_lt_succ hjlt, ?_, ?_, ?_⟩
        · simpa [List.getD_cons_succ] using hpj
        · intro j' hj' w
          cases j' with
          | zero =>
            rw [List.getD_cons_zero]
            exact hheadne hp w
          | succ k =>
            have hk := hguard k (by omega) w
            simpa [List.getD_cons_succ] using hk
        · rw [hstep hp]
          rw [show i + (j + 1) + 1 = i + 1 + j + 1 from by omega]
          exact hres
      · right
        refine ⟨?_, ?_⟩
        · intro j hj w
          cases j with
          | zero =>
            rw [List.getD_cons_zero]
            exact hheadne hp w
          | succ k =>
            have hk := hall k (by simpa using hj) w
            simpa [List.getD_cons_succ] using hk
        · rw [hstep hp]
          exact hres
    cases hp : parse d with
    | ok ov =>
      cases ov with
      | some v =>
        left
        refine ⟨0, v, by simp, by simpa using hp, fun j' hj' => absurd hj' (by omega), ?_⟩
        show (match parse d with
          | .ok (some v) =>
            ((.ok (some v) : Except Unit (Option Node)),
              [s!"Successfully parsed YAML document {i+1} of {total}"])
          | _ => scanDocs parse rest (i + 1) total) = _
        rw [hp]
      | none => exact htail (Or.inl hp)
    | error e => exact htail (Or.inr ⟨e, hp⟩)

set_option maxRecDepth 100000 in
/-- C7 counterexample: the strategy does not split as the claim describes.
On a 101-line input that begins with a `---` separator line, the code keeps
that separator line as content of the first segment (`current_doc` is still
empty, so the line is appended rather than treated as a delimiter), while
the claim's splitting — separators as delimiters, empty leading segments
discarded — yields a first segment without it. A parser that succeeds
exactly on segments starting with `---` is accepted by the code's strategy
(with its success diagnostic) but fails under the claim's splitting. -/
theorem C7_counterexample :
    (parse_chunked_yaml
        (fun t => if t.take 3 = "---".data then .ok (some (.str "x")) else .error ())
        (joinNl (["---".data] ++ List.replicate 98 "a".data ++ ["---".data, "b".data]))).2
      = ["Successfully parsed YAML document 1 of 2"]
    ∧ okFlag (parse_chunked_yaml
        (fun t => if t.take 3 = "---".data then .ok (some (.str "x")) else .error ())
        (joinNl (["---".data] ++ List.replicate 98 "a".data ++ ["---".data, "b".data]))).1
      = true
    ∧ (parse_chunked_spec
        (fun t => if t.take 3 = "---".data then .ok (some (.str "x")) else .error ())
        (joinNl (["---".data] ++ List.replicate 98 "a".data ++ ["---".data, "b".data]))).2
      = []
    ∧ okFlag (parse_chunked_spec
        (fun t => if t.take 3 = "---".data then .ok (some (.str "x")) else .error ())
        (joinNl (["---".data] ++ List.replicate 98 "a".data ++ ["---".data, "b".data]))).1
      = false := by
  refine ⟨?_, ?_, ?_, ?_⟩ <;> decide

/-- C7 (amended): the document-boundary recovery runs only when the input
has at least 100 lines (fewer lines just re-parse the whole text); it
splits the line list at three-dash separator lines, except that a separator
line seen while the current segment is empty is kept as content of the
following segment (so separators never produce empty segments, and a
leading separator stays in the first segment's text); when more than one
segment results, it parses the segments in order and returns the first one
parsing to a non-null result, with a diagnostic giving that segment's
1-indexed number and the total count; with at most one segment, or when no
segment parses to a non-null result, the strategy fails. -/
theorem C7_chunked_recovery :
    (∀ (parse : ParseFun) (content : List Char),
      (splitLines content).length < 100 →
      parse_chunked_yaml parse content = (parse content, []))
    ∧ (∀ (parse : ParseFun) (content : List Char),
      ¬(splitLines content).length < 100 →
      ¬(chunkDocs (splitLines content) [] []).length > 1 →
      parse_chunked_yaml parse content = (.error (), []))
    ∧ (∀ (parse : ParseFun) (content : List Char),
      ¬(splitLines content).length < 100 →
      (chunkDocs (splitLines content) [] []).length > 1 →
      (∃ j v, j < (chunkDocs (splitLines content) [] []).length
        ∧ parse ((chunkDocs (splitLines content) [] []).getD j []) = .ok (some v)
        ∧ (∀ j' < j, ∀ w,
            parse ((chunkDocs (splitLines content) [] []).getD j' []) ≠ .ok (some w))
        ∧ parse_chunked_yaml parse content
            = (.ok (some v),
               [s!"Successfully parsed YAML document {j + 1} of {(chunkDocs (splitLines content) [] []).length}"]))
      ∨ ((∀ j < (chunkDocs (splitLines content) [] []).length, ∀ w,
            parse ((chunkDocs (splitLines content) [] []).getD j []) ≠ .ok (some w))
        ∧ parse_chunked_yaml parse content = (.error (), []))) := by
  refine ⟨?_, ?_, ?_⟩
  · intro parse content h
    unfold parse_chunked_yaml
    rw [if_pos h]
  · intro parse content h1 h2
    unfold parse_chunked_yaml
    rw [if_neg h1]
    show (if (chunkDocs (splitLines content) [] []).length > 1
        then scanDocs parse (chunkDocs (splitLines content) [] []) 0
          (chunkDocs (splitLines content) [] []).length
        else ((.error () : Except Unit (Option Node)), ([] : List String)))
      = (.error (), [])
    rw [if_neg h2]
  · intro parse content h1 h2
    have hre : parse_chunked_yaml parse content
        = scanDocs parse (chunkDocs (splitLines content) [] [])
            0 (chunkDocs (splitLines content) [] []).length := by
      unfold parse_chunked_yaml
      rw [if_neg h1]
      show (if (chunkDocs (splitLines content) [] []).length > 1
          then scanDocs parse (chunkDocs (splitLines content) [] []) 0
            (chunkDocs (splitLines content) [] []).length
          else ((.error () : Except Unit (Option Node)), ([] : List String)))
        = _
      rw [if_pos h2]
    rcases scanDocs_spec parse (chunkDocs (splitLines content) [] []) 0
        (chunkDocs (splitLines content) [] []).length with
      ⟨j, v, hjlt, hpj, hguard, hres⟩ | ⟨hall, hres⟩
    · left
      refine ⟨j, v, hjlt, hpj, hguard, ?_⟩
      rw [hre, hres, Nat.zero_add]
    · right
      exact ⟨hall, by rw [hre, hres]⟩

set_option maxRecDepth 100000 in
/-- C7 witness: the amended first-non-null behaviour at a concrete
101-line input whose second segment parses. -/
theorem C7_chunked_recovery_witness :
    (¬(splitLines (joinNl (List.replicate 99 "a".data ++ ["---".data, "ok".data]))).length < 100
      ∧ (chunkDocs (splitLines (joinNl (List.replicate 99 "a".data
          ++ ["---".data, "ok".data]))) [] []).length > 1)
    ∧ ((∃ j v, j < (chunkDocs (splitLines (joinNl (List.replicate 99 "a".data
            ++ ["---".data, "ok".data]))) [] []).length
        ∧ (fun t => if t = "ok".data then Except.ok (some (Node.str "v"))
            else Except.error ())
            ((chunkDocs (splitLines (joinNl (List.replicate 99 "a".data
              ++ ["---".data, "ok".data]))) [] []).getD j []) = .ok (some v)
        ∧ (∀ j' < j, ∀ w,
            (fun t => if t = "ok".data then Except.ok (some (Node.str "v"))
              else Except.error ())
              ((chunkDocs (splitLines (joinNl (List.replicate 99 "a".data
                ++ ["---".data, "ok".data]))) [] []).getD j' []) ≠ .ok (some w))
        ∧ (parse_chunked_yaml
            (fun t => if t = "ok".data then Except.ok (some (Node.str "v"))
              else Except.error ())
            (joinNl (List.replicate 99 "a".data ++ ["---".data, "ok".data]))).1
            = .ok (some v)
        ∧ (parse_chunked_yaml
            (fun t => if t = "ok".data then Except.ok (some (Node.str "v"))
              else Except.error ())
            (joinNl (List.replicate 99 "a".data ++ ["---".data, "ok".data]))).2.length
            = 1)
      ∨ ((∀ j < (chunkDocs (splitLines (joinNl (List.replicate 99 "a".data
            ++ ["---".data, "ok".data]))) [] []).length, ∀ w,
          (fun t => if t = "ok".data then Except.ok (some (Node.str "v"))
            else Except.error ())
            ((chunkDocs (splitLines (joinNl (List.replicate 99 "a".data
              ++ ["---".data, "ok".data]))) [] []).getD j []) ≠ .ok (some w))
        ∧ parse_chunked_yaml
            (fun t => if t = "ok".data then Except.ok (some (Node.str "v"))
              else Except.error ())
            (joinNl (List.replicate 99 "a".data ++ ["---".data, "ok".data]))
            = (.error (), []))) :=
  ⟨⟨by decide, by decide⟩, by
    rcases C7_chunked_recovery.2.2
        (fun t => if t = "ok".data then Except.ok (some (Node.str "v")) else Except.error ())
        (joinNl (List.replicate 99 "a".data ++ ["---".data, "ok".data]))
        (by decide) (by decide) with
      ⟨j, v, hj, hp, hg, hres⟩ | ⟨hall, hres⟩
    · exact Or.inl ⟨j, v, hj, hp, hg, by rw [hres], by rw [hres]; rfl⟩
    · exact Or.inr ⟨hall, hres⟩⟩

/-- C5 counterexample: converting the example document to JSON emits its
top-level keys in parse order `name, version, display_name`, not in the
canonical order `name, display_name, version` the claim states: the JSON
output path of `main` never applies the ordering pass. -/
theorem C5_counterexample :
    jsonTopKeysOfText
        ((mainResult (fun _ => Except.ok (some jsonDemoDoc)) "x".data .json).2.getD [])
      = ["name", "version", "display_name"]
    ∧ ["name", "version", "display_name"] ≠ ["name", "display_name", "version"] :=
  ⟨by decide, by decide⟩

/-- C5 (amended): for the example input document
`\x7bname: foo, version: "1.0", display_name: Foo\x7d` (ingested with its
mapping keys in source order) converted with requested output format JSON,
the conversion succeeds and the emitted JSON object's keys appear in exactly
the parse order `name, version, display_name`: the canonical ordering pass
is not applied on the JSON output path. -/
theorem C5_json_key_order (parse : ParseFun) (content : List Char)
    (hs : stripText content ≠ [])
    (hp : parse content = .ok (some jsonDemoDoc)) :
    (mainResult parse content .json).1 = 0
    ∧ jsonTopKeysOfText ((mainResult parse content .json).2.getD [])
        = ["name", "version", "display_name"] := by
  have h1 : yaml_to_dict parse content = (some jsonDemoDoc, []) := by
    unfold yaml_to_dict
    rw [if_neg hs]
    unfold safe_load_yaml
    rw [hp]
  have h2 : mainResult parse content .json = (0, some (jsonDump 0 jsonDemoDoc)) := by
    unfold mainResult
    rw [h1]
    decide
  rw [h2]
  exact ⟨rfl, by decide⟩

/-- C5 witness: the amended behaviour at a concrete parser and content. -/
theorem C5_json_key_order_witness :
    (stripText "x".data ≠ []
      ∧ (fun _ : List Char =>
          (Except.ok (some jsonDemoDoc) : Except Unit (Option Node))) "x".data
        = Except.ok (some jsonDemoDoc))
    ∧ ((mainResult (fun _ => Except.ok (some jsonDemoDoc)) "x".data .json).1 = 0
      ∧ jsonTopKeysOfText
          ((mainResult (fun _ => Except.ok (some jsonDemoDoc)) "x".data .json).2.getD [])
        = ["name", "version", "display_name"]) :=
  ⟨⟨by decide, rfl⟩,
   C5_json_key_order (fun _ => Except.ok (some jsonDemoDoc)) "x".data (by decide) rfl⟩

/-- C9: the encoding cascade of `yaml_to_dict` is total — for every byte
sequence some encoding in `utf-8, utf-8-sig, latin1, cp1252` decodes it
(latin1 accepts any byte sequence), so the `content is None` error branch
is unreachable. -/
theorem C9_encoding_totality (bs : List Byte) : (decodeContent bs).isSome = true := by
  simp only [decodeContent, encodingCascade, firstSuccess]
  cases utf8Decode bs with
  | some t => rfl
  | none =>
    cases utf8SigDecode bs with
    | some t => rfl
    | none => rfl

/-- C10: when the input's text is non-empty and parses successfully to the
null document, `main` exits with status 1 and prints nothing — for every
output format — exactly as if parsing had failed: `yaml_to_dict` returns
the parsed `None`, and `main` treats `data is None` as failure. -/
theorem C10_null_document_exit (parse : ParseFun) (content : List Char)
    (hs : stripText content ≠ [])
    (hp : parse content = .ok none) :
    ∀ fmt, mainResult parse content fmt = (1, none) := by
  intro fmt
  have h1 : yaml_to_dict parse content = (none, []) := by
    unfold yaml_to_dict
    rw [if_neg hs]
    unfold safe_load_yaml
    rw [hp]
  unfold mainResult
  rw [h1]

/-- C10 witness: the null-document exit at the concrete content `null`
with a parser mapping it to the null document. -/
theorem C10_null_document_exit_witness :
    (stripText "null".data ≠ []
      ∧ (fun _ : List Char =>
          (Except.ok (none : Option Node) : Except Unit (Option Node))) "null".data
        = Except.ok none)
    ∧ mainResult (fun _ => Except.ok none) "null".data .yaml = (1, none) :=
  ⟨⟨by decide, rfl⟩,
   C10_null_document_exit (fun _ => Except.ok none) "null".data (by decide) rfl .yaml⟩

end YamlBridge